import Mathlib

/-!
Verification of the playwright-janitor core (test discovery analyzer and
shard orchestrator) of this repository.

The TypeScript sources are embedded shallowly:

* JS `number` durations are modelled as `ℚ` (all inputs in the repository are
  integral millisecond counts; JS float rounding is not modelled).
* `Record<string, number>` metrics maps are association lists
  `List (String × ℚ)`; `metrics[path]` is the first binding for `path`.
* The falsy-coalescing `metrics[spec.path] || defaultDuration` falls back for
  a missing key and for a stored `0` (the only falsy `ℚ` value we can model).
* `Array.prototype.sort` is stable (ES2019); we model it with a stable
  structural insertion sort, whose output coincides with any stable sort for
  the comparators used here (total preorders).
* JS `Map` (insertion ordered) is an association list where a new key is
  appended at the end; JS `Set` is an insertion-ordered duplicate-free list.
* The truthiness test `if (item.capability)` is false for `null` and for the
  empty string.
-/

/-- The definition `DiscoveredSpec` from test-discovery-analyzer.ts. -/
structure DiscoveredSpec where
  path : String
  capabilities : List String
deriving DecidableEq

/-- The definition `SpecWithDuration` from orchestrator.ts. -/
structure SpecWithDuration where
  path : String
  capabilities : List String
  duration : ℚ
deriving DecidableEq

/-- The definition `PackingItem` from orchestrator.ts. -/
structure PackingItem where
  capability : Option String
  specs : List String
  duration : ℚ
deriving DecidableEq

/-- The definition `Bucket` from orchestrator.ts.  `capabilities` models a JS `Set<string>`
as an insertion-ordered duplicate-free list. -/
structure Bucket where
  specs : List String
  testTime : ℚ
  capabilities : List String
  hasStandardSpecs : Bool
deriving DecidableEq

/-- The definition `ShardAssignment` from orchestrator.ts. -/
structure ShardAssignment where
  shard : Nat
  specs : List String
  testTime : ℚ
  capabilities : List String
  fixtureCount : Nat
deriving DecidableEq

/-- The definition `OrchestrationResult` from orchestrator.ts. -/
structure OrchestrationResult where
  shards : List ShardAssignment
  totalTestTime : ℚ
deriving DecidableEq

/-- The definition `OrchestrationConfig` from orchestrator.ts. -/
structure OrchestrationConfig where
  defaultDuration : ℚ
  maxGroupDuration : ℚ
deriving DecidableEq

/-- First binding for `key` in a `Record<string, number>` association list. -/
def lookupMetrics (metrics : List (String × ℚ)) (key : String) : Option ℚ :=
  match metrics with
  | [] => none
  | (k, v) :: rest => if k = key then some v else lookupMetrics rest key

/-- The definition `enrichWithDuration` from orchestrator.ts:
`duration: metrics[spec.path] || defaultDuration`.  The JS `||` falls back
both when the key is absent and when the stored value is falsy (`0`). -/
def enrichWithDuration (specs : List DiscoveredSpec) (metrics : List (String × ℚ))
    (defaultDuration : ℚ) : List SpecWithDuration :=
  specs.map fun spec =>
    { path := spec.path
      capabilities := spec.capabilities
      duration :=
        match lookupMetrics metrics spec.path with
        | some d => if d = 0 then defaultDuration else d
        | none => defaultDuration }

/-- The definition `groups.get(cap)?.push(spec)` preceded by `groups.set(cap, [])` for a new
key: append `spec` to the binding of `cap`, creating the binding at the end of
the insertion-ordered map when absent. -/
def pushSpec (groups : List (String × List SpecWithDuration)) (cap : String)
    (s : SpecWithDuration) : List (String × List SpecWithDuration) :=
  match groups with
  | [] => [(cap, [s])]
  | (c, l) :: rest =>
    if c = cap then (c, l ++ [s]) :: rest else (c, l) :: pushSpec rest cap s

/-- Loop body of `groupByCapability`: a spec with at least one capability is
filed under its first capability, a capability-less spec goes to `standard`. -/
def groupStep (acc : List (String × List SpecWithDuration) × List SpecWithDuration)
    (s : SpecWithDuration) :
    List (String × List SpecWithDuration) × List SpecWithDuration :=
  match s.capabilities with
  | cap :: _ => (pushSpec acc.1 cap s, acc.2)
  | [] => (acc.1, acc.2 ++ [s])

/-- The definition `groupByCapability` from orchestrator.ts. -/
def groupByCapability (specs : List SpecWithDuration) :
    List (String × List SpecWithDuration) × List SpecWithDuration :=
  specs.foldl groupStep ([], [])

/-- Stable insertion of `a` in front of the first element `b` with `le a b`. -/
def insertLe (le : α → α → Bool) (a : α) : List α → List α
  | [] => [a]
  | b :: bs => if le a b then a :: b :: bs else b :: insertLe le a bs

/-- Stable sort (models ES2019 `Array.prototype.sort`, which is stable; for a
total preorder every stable sort produces this same list). -/
def stableSort (le : α → α → Bool) (l : List α) : List α :=
  l.foldr (insertLe le) []

/-- The definition `specs.sort((a, b) => b.duration - a.duration)`: stable descending sort. -/
def sortSpecsDesc (l : List SpecWithDuration) : List SpecWithDuration :=
  stableSort (fun a b => decide (b.duration ≤ a.duration)) l

/-- The subgroup-accumulation loop of `splitLargeGroups`.  `current` is the
subgroup being filled, `currentTotal` its running duration sum. -/
def splitFold (target : ℚ) :
    List SpecWithDuration → List SpecWithDuration → ℚ → List (List SpecWithDuration)
  | [], current, _ => [current]
  | s :: rest, current, currentTotal =>
    if currentTotal + s.duration > target ∧ current ≠ [] then
      current :: splitFold target rest [s] s.duration
    else
      splitFold target rest (current ++ [s]) (currentTotal + s.duration)

/-- Body of the `for (const [capability, specs] of groups.entries())` loop of
`splitLargeGroups`. -/
def groupItems (maxGroupDuration : ℚ) (capability : String)
    (gspecs : List SpecWithDuration) : List PackingItem :=
  let specs := sortSpecsDesc gspecs
  let totalDuration := (specs.map (·.duration)).sum
  if totalDuration > maxGroupDuration ∧ specs.length > 1 then
    -- numSubGroups = ceil(total / maxGroupDuration), target = total / numSubGroups
    (splitFold (totalDuration / ((⌈totalDuration / maxGroupDuration⌉ : ℤ) : ℚ))
        specs [] 0).map fun sub =>
      PackingItem.mk (some capability) (sub.map (·.path)) (sub.map (·.duration)).sum
  else
    [PackingItem.mk (some capability) (specs.map (·.path)) totalDuration]

/-- The definition `splitLargeGroups` from orchestrator.ts. -/
def splitLargeGroups (groups : List (String × List SpecWithDuration))
    (maxGroupDuration : ℚ) : List PackingItem :=
  (groups.map fun g => groupItems maxGroupDuration g.1 g.2).flatten

/-- The empty bucket created by `assignToShards`. -/
def emptyBucket : Bucket :=
  { specs := [], testTime := 0, capabilities := [], hasStandardSpecs := false }

/-- JS `Set.add`: append if not already present. -/
def addCap (caps : List String) (c : String) : List String :=
  if c ∈ caps then caps else caps ++ [c]

/-- Mutation of the chosen bucket in the packing loop of `assignToShards`.
`if (item.capability)` is JS-truthy: false for `null` and for `""`. -/
def applyItem (b : Bucket) (item : PackingItem) : Bucket :=
  { specs := b.specs ++ item.specs
    testTime := b.testTime + item.duration
    capabilities :=
      match item.capability with
      | some c => if c = "" then b.capabilities else addCap b.capabilities c
      | none => b.capabilities
    hasStandardSpecs :=
      match item.capability with
      | some c => if c = "" then true else b.hasStandardSpecs
      | none => true }

/-- Minimum `testTime` among the buckets (0 for the empty list). -/
def minTestTime : List Bucket → ℚ
  | [] => 0
  | [b] => b.testTime
  | b :: rest => min b.testTime (minTestTime rest)

/-- The definition `buckets.reduce((min, b) => (b.testTime < min.testTime ? b : min))`:
index of the first bucket whose `testTime` attains the minimum (the running
champion is replaced only by a strictly smaller `testTime`). -/
def lightestIdx : List Bucket → Nat
  | [] => 0
  | [_] => 0
  | b :: rest =>
    if minTestTime rest < b.testTime then lightestIdx rest + 1 else 0

/-- One iteration of the packing loop: add the item to the lightest bucket. -/
def addItem (buckets : List Bucket) (item : PackingItem) : List Bucket :=
  buckets.set (lightestIdx buckets)
    (applyItem (buckets.getD (lightestIdx buckets) emptyBucket) item)

/-- The definition `items.sort((a, b) => b.duration - a.duration)`: stable descending sort. -/
def sortItemsDesc (items : List PackingItem) : List PackingItem :=
  stableSort (fun a b => decide (b.duration ≤ a.duration)) items

/-- The definition `assignToShards` from orchestrator.ts. -/
def assignToShards (items : List PackingItem) (numShards : Nat) : List Bucket :=
  (sortItemsDesc items).foldl addItem (List.replicate numShards emptyBucket)

/-- Lexicographic comparison of character lists (UTF-16 code-unit comparison
of the default JS sort comparator; all strings compared here are ASCII). -/
def charsLe : List Char → List Char → Bool
  | [], _ => true
  | _ :: _, [] => false
  | a :: as, b :: bs =>
    if a < b then true else if b < a then false else charsLe as bs

/-- Default JS string comparison used by `.sort()` on string arrays. -/
def strLeB (a b : String) : Bool := charsLe a.data b.data

/-- The definition `[...set].sort()` on a string set. -/
def sortStrings (l : List String) : List String := stableSort strLeB l

/-- The definition `.filter((b) => b.specs.length > 0).map((b, i) => ({ shard: i + 1, ... }))`
— numbering of the surviving buckets, `i` starting at 0. -/
def finalizeBuckets : Nat → List Bucket → List ShardAssignment
  | _, [] => []
  | i, b :: rest =>
    { shard := i + 1
      specs := b.specs
      testTime := b.testTime
      capabilities := sortStrings b.capabilities
      fixtureCount := b.capabilities.length + (if b.hasStandardSpecs then 1 else 0) }
      :: finalizeBuckets (i + 1) rest

/-- The definition `orchestrate` from orchestrator.ts. -/
def orchestrate (specs : List DiscoveredSpec) (numShards : Nat)
    (metrics : List (String × ℚ)) (config : OrchestrationConfig) :
    OrchestrationResult :=
  let enriched := enrichWithDuration specs metrics config.defaultDuration
  let gp := groupByCapability enriched
  let capabilityItems := splitLargeGroups gp.1 config.maxGroupDuration
  let standardItems : List PackingItem := gp.2.map fun spec =>
    { capability := none, specs := [spec.path], duration := spec.duration }
  let buckets := assignToShards (capabilityItems ++ standardItems) numShards
  let totalTestTime := (enriched.map (·.duration)).sum
  { shards := finalizeBuckets 0 (buckets.filter fun b => !b.specs.isEmpty)
    totalTestTime := totalTestTime }

mutual
inductive TsNode where
  | call (callee : String) (args : TsArgs)
  | block (stmts : TsNodes)
  | leaf

inductive TsNodes where
  | nil
  | cons (head : TsNode) (tail : TsNodes)

inductive TsArg where
  | strLit (s : String)
  | fn (body : TsNode)
  | other

inductive TsArgs where
  | nil
  | cons (head : TsArg) (tail : TsArgs)
end

/-- View of one call argument, with the body block of a function-valued
argument replaced by its identifying path (`none` for an expression-bodied
arrow function). -/
inductive ArgView where
  | strLit (s : String)
  | fn (bodyBlock : Option (List Nat))
  | other
deriving DecidableEq

/-- One call expression found in the file: its callee text, argument views,
and the paths of its enclosing blocks, nearest first (the chain walked by
`getFirstAncestorByKind(SyntaxKind.Block)`). -/
structure CallOcc where
  callee : String
  argsV : List ArgView
  anc : List (List Nat)
deriving DecidableEq

/-- Argument view of the argument in slot path `p`. -/
def viewArg (p : List Nat) : TsArg → ArgView
  | .strLit s => .strLit s
  | .fn body =>
    match body with
    | .block _ => .fn (some p)
    | _ => .fn none
  | .other => .other

/-- Argument views of an argument list of a call in slot path `p`, argument
`i` getting slot path `p ++ [i]`. -/
def viewArgs (p : List Nat) (i : Nat) : TsArgs → List ArgView
  | .nil => []
  | .cons a rest => viewArg (p ++ [i]) a :: viewArgs p (i + 1) rest

mutual
/-- All call expressions in the subtree at slot path `p` with enclosing-block
chain `anc`, in document (pre-)order: exactly what
`getDescendantsOfKind(SyntaxKind.CallExpression)` visits. -/
def occsNode (p : List Nat) (anc : List (List Nat)) : TsNode → List CallOcc
  | .call callee args => ⟨callee, viewArgs p 0 args, anc⟩ :: occsArgs p 0 anc args
  | .block stmts => occsNodes p 0 (p :: anc) stmts
  | .leaf => []

def occsNodes (p : List Nat) (i : Nat) (anc : List (List Nat)) : TsNodes → List CallOcc
  | .nil => []
  | .cons n rest => occsNode (p ++ [i]) anc n ++ occsNodes p (i + 1) anc rest

def occsArgs (p : List Nat) (i : Nat) (anc : List (List Nat)) : TsArgs → List CallOcc
  | .nil => []
  | .cons a rest => occsArg (p ++ [i]) anc a ++ occsArgs p (i + 1) anc rest

def occsArg (p : List Nat) (anc : List (List Nat)) : TsArg → List CallOcc
  | .strLit _ => []
  | .fn body => occsNode p anc body
  | .other => []
end

/-- All call expressions of a source file, in document order. -/
def fileOccs (file : TsNodes) : List CallOcc := occsNodes [] 0 [] file

/-- The definition `TestCallInfo` from test-discovery-analyzer.ts. -/
structure TestCallInfo where
  skipped : Bool
  isDescribe : Bool
  tags : List String
deriving DecidableEq

/-- The definition `DiscoveryConfig` fields used by `analyzeTestFile` (`capabilityPfx`
models the `capabilityPrefix` configuration entry). -/
structure DiscoveryConfig where
  skipTags : List String
  capabilityPfx : String
deriving DecidableEq

/-- The character class `[\w:-]` of `TAG_PATTERN = /@[\w:-]+/g` (JS `\w`
without the unicode flag is `[A-Za-z0-9_]`). -/
def isTagChar (c : Char) : Bool :=
  decide ('a' ≤ c ∧ c ≤ 'z') || decide ('A' ≤ c ∧ c ≤ 'Z') ||
    decide ('0' ≤ c ∧ c ≤ '9') || c == '_' || c == ':' || c == '-'

/-- Left-to-right scan of `title.matchAll(TAG_PATTERN)`.  The state is `none`
outside a candidate match and `some acc` right after an `@` whose run of tag
characters so far is `acc`; a maximal non-empty run emits a tag and scanning
resumes at the terminating character (which may itself start a new match). -/
def tagScan : List Char → Option (List Char) → List String
  | [], st =>
    match st with
    | some acc => if acc = [] then [] else [String.mk ('@' :: acc)]
    | none => []
  | c :: rest, st =>
    match st with
    | none => if c = '@' then tagScan rest (some []) else tagScan rest none
    | some acc =>
      if isTagChar c then tagScan rest (some (acc ++ [c]))
      else
        (if acc = [] then [] else [String.mk ('@' :: acc)]) ++
          (if c = '@' then tagScan rest (some []) else tagScan rest none)

/-- The definition `parseTags` from test-discovery-analyzer.ts. -/
def parseTags (title : String) : List String := tagScan title.data none

/-- The definition `extractTitle`: the first argument must be a plain string literal or a
substitution-free template literal; anything else yields no title. -/
def extractTitle (c : CallOcc) : Option String :=
  match c.argsV with
  | [] => none
  | a :: _ =>
    match a with
    | .strLit s => some s
    | _ => none

/-- The definition `extractSkippedBlock`: a `test.fixme`/`test.skip` call with no arguments
marks its nearest enclosing block; with arguments, it marks the body block of
a function-valued last argument, if any. -/
def extractSkippedBlock (c : CallOcc) : Option (List Nat) :=
  if c.callee = "test.fixme" ∨ c.callee = "test.skip" then
    match c.argsV with
    | [] => c.anc.head?
    | argsV =>
      match argsV.getLast? with
      | some (.fn (some bid)) => some bid
      | _ => none
  else none

/-- The definition `findSkippedScopes`: first pass over all call expressions, collecting the
identifiers of skipped blocks (a JS `Set` queried only for membership). -/
def findSkippedScopes (file : TsNodes) : List (List Nat) :=
  (fileOccs file).filterMap extractSkippedBlock

/-- The definition `isInsideSkippedScope`: walk the enclosing-block chain outward and test
membership in the skipped-scope set. -/
def isInsideSkippedScope (c : CallOcc) (scopes : List (List Nat)) : Bool :=
  c.anc.any fun b => decide (b ∈ scopes)

/-- The definition `parseTestCall` from test-discovery-analyzer.ts. -/
def parseTestCall (skipTags : List String) (c : CallOcc) : Option TestCallInfo :=
  if c.callee = "test" ∨ c.callee = "test.only" ∨ c.callee = "test.describe" ∨
      c.callee = "test.fixme" ∨ c.callee = "test.skip" then
    match extractTitle c with
    | none => none
    | some title =>
      let tags := parseTags title
      some
        { skipped := decide (c.callee = "test.fixme" ∨ c.callee = "test.skip") ||
            tags.any fun tag => skipTags.contains tag
          isDescribe := decide (c.callee = "test.describe")
          tags := tags }
  else none

/-- Loop body of `extractTestCalls`: parse the call, then force `skipped`
when the call sits inside a skipped scope. -/
def processCall (skipTags : List String) (scopes : List (List Nat)) (c : CallOcc) :
    Option TestCallInfo :=
  match parseTestCall skipTags c with
  | none => none
  | some info =>
    some (if !info.skipped && isInsideSkippedScope c scopes then
      { info with skipped := true } else info)

/-- The definition `extractTestCalls` from test-discovery-analyzer.ts. -/
def extractTestCalls (skipTags : List String) (file : TsNodes) : List TestCallInfo :=
  (fileOccs file).filterMap (processCall skipTags (findSkippedScopes file))

/-- JS `Set` insertion over a list: keep the first occurrence of each
element, preserving order.  `seen` accumulates the elements already kept. -/
def dedupSeen : List String → List String → List String
  | [], _ => []
  | t :: rest, seen =>
    if t ∈ seen then dedupSeen rest seen else t :: dedupSeen rest (t :: seen)

/-- Iteration order of the `allTags` set of `analyzeTestFile`. -/
def dedupFirst (l : List String) : List String := dedupSeen l []

/-- JS `String.prototype.startsWith` on character lists. -/
def strHasPfx : List Char → List Char → Bool
  | [], _ => true
  | _ :: _, [] => false
  | p :: ps, c :: cs => p == c && strHasPfx ps cs

/-- JS `String.prototype.slice(n)` (all strings involved are ASCII, so
UTF-16 units coincide with characters). -/
def sliceFrom (s : String) (n : Nat) : String := String.mk (s.data.drop n)

/-- The definition `analyzeTestFile` from test-discovery-analyzer.ts (the file path is the
already-computed `getRelativePath(file.getFilePath())`). -/
def analyzeTestFile (cfg : DiscoveryConfig) (path : String) (file : TsNodes) :
    Option DiscoveredSpec :=
  let calls := extractTestCalls cfg.skipTags file
  if calls = [] then none
  else if !(calls.any fun call => !call.skipped && !call.isDescribe) then none
  else
    let allTags := dedupFirst (calls.foldl (fun acc call => acc ++ call.tags) [])
    let capabilities :=
      (allTags.filter fun tag => strHasPfx cfg.capabilityPfx.data tag.data).map
        fun tag => sliceFrom tag cfg.capabilityPfx.length
    some { path := path, capabilities := sortStrings capabilities }

/-- Association-list lookup in the insertion-ordered group map. -/
def lookupG (groups : List (String × List SpecWithDuration)) (c : String) :
    Option (List SpecWithDuration) :=
  match groups with
  | [] => none
  | (k, v) :: rest => if k = c then some v else lookupG rest c

/-- All specs stored in the group map. -/
def flattenG (groups : List (String × List SpecWithDuration)) : List SpecWithDuration :=
  (groups.map (·.2)).flatten

/-- The running-fit check of the greedy accumulation: starting from an
accumulated duration `acc`, every successive member must keep the running
total at or under `target`. -/
def runFitsB (target : ℚ) : ℚ → List SpecWithDuration → Bool
  | _, [] => true
  | acc, s :: rest =>
    decide (acc + s.duration ≤ target) && runFitsB target (acc + s.duration) rest

/-- A subgroup respects the greedy rule internally: its first member is
unconditional, each later member fit under `target` when added. -/
def subOkB (target : ℚ) : List SpecWithDuration → Bool
  | [] => true
  | s :: rest => runFitsB target s.duration rest

/-- Consecutive subgroups respect the greedy rule at the boundary: a new
subgroup was started only because its first member would have pushed the
previous subgroup past `target`. -/
def boundaryOkB (target : ℚ) : List (List SpecWithDuration) → Bool
  | [] => true
  | [_] => true
  | sub :: sub' :: rest =>
    (match sub' with
     | [] => true
     | s :: _ => decide ((sub.map (·.duration)).sum + s.duration > target)) &&
      boundaryOkB target (sub' :: rest)

/-- The bucket obtained by folding a list of items into `b` one at a time. -/
def bucketFromItems (b : Bucket) (its : List PackingItem) : Bucket :=
  its.foldl applyItem b

/-- JS falsiness of `item.capability` (`null` or the empty string). -/
def capFalsy (item : PackingItem) : Bool :=
  match item.capability with
  | some c => c == ""
  | none => true

/-- The packing items assembled by `orchestrate` before the bin-packing step. -/
def orchestrateItems (specs : List DiscoveredSpec) (metrics : List (String × ℚ))
    (config : OrchestrationConfig) : List PackingItem :=
  splitLargeGroups
      (groupByCapability (enrichWithDuration specs metrics config.defaultDuration)).1
      config.maxGroupDuration ++
    (groupByCapability (enrichWithDuration specs metrics config.defaultDuration)).2.map
      fun spec => PackingItem.mk none [spec.path] spec.duration

/-- The file `test.describe('g', () => { test.fixme(); test('inner', () => {}) })`. -/
def c8DemoFile : TsNodes :=
  .cons (.call "test.describe" (.cons (.strLit "g")
    (.cons (.fn (.block (.cons (.call "test.fixme" .nil)
      (.cons (.call "test" (.cons (.strLit "inner") (.cons (.fn (.block .nil)) .nil)))
        .nil))))
      .nil))) .nil

theorem insertLe_perm (le : α → α → Bool) (a : α) (l : List α) :
    List.Perm (insertLe le a l) (a :: l) := by
  induction l with
  | nil => simp [insertLe]
  | cons b bs ih =>
    by_cases h : le a b = true
    · simp [insertLe, h]
    · simp only [insertLe, h, if_false]
      exact (ih.cons b).trans (List.Perm.swap a b bs)

theorem stableSort_perm (le : α → α → Bool) (l : List α) : List.Perm (stableSort le l) l := by
  induction l with
  | nil => simp [stableSort]
  | cons a as ih =>
    exact (insertLe_perm le a (stableSort le as)).trans (ih.cons a)

theorem mem_stableSort (le : α → α → Bool) (a : α) (l : List α) :
    a ∈ stableSort le l ↔ a ∈ l :=
  (stableSort_perm le l).mem_iff

theorem length_stableSort (le : α → α → Bool) (l : List α) :
    (stableSort le l).length = l.length :=
  (stableSort_perm le l).length_eq

theorem sorted_insertLe (le : α → α → Bool)
    (htrans : ∀ a b c, le a b = true → le b c = true → le a c = true)
    (htot : ∀ a b, le a b = true ∨ le b a = true) (a : α) (l : List α)
    (hl : l.Pairwise (le · · = true)) :
    (insertLe le a l).Pairwise (le · · = true) := by
  induction l with
  | nil => simp [insertLe]
  | cons b bs ih =>
    rcases List.pairwise_cons.1 hl with ⟨hb, hbs⟩
    by_cases h : le a b = true
    · simp only [insertLe, h, if_true]
      refine List.pairwise_cons.2 ⟨?_, hl⟩
      intro x hx
      rcases List.mem_cons.1 hx with rfl | hx
      · exact h
      · exact htrans a b x h (hb x hx)
    · simp only [insertLe, h, if_false]
      refine List.pairwise_cons.2 ⟨?_, ih hbs⟩
      intro x hx
      rcases List.mem_cons.1 ((insertLe_perm le a bs).mem_iff.1 hx) with rfl | hx
      · rcases htot x b with h' | h'
        · exact absurd h' h
        · exact h'
      · exact hb x hx

theorem sorted_stableSort (le : α → α → Bool)
    (htrans : ∀ a b c, le a b = true → le b c = true → le a c = true)
    (htot : ∀ a b, le a b = true ∨ le b a = true) (l : List α) :
    (stableSort le l).Pairwise (le · · = true) := by
  induction l with
  | nil => simp [stableSort]
  | cons a as ih => exact sorted_insertLe le htrans htot a _ ih

theorem charsLe_total : ∀ a b : List Char, charsLe a b = true ∨ charsLe b a = true
  | [], _ => Or.inl rfl
  | _ :: _, [] => Or.inr rfl
  | a :: as, b :: bs => by
    by_cases hab : a < b
    · left; simp [charsLe, hab]
    · by_cases hba : b < a
      · right; simp [charsLe, hba, asymm hba]
      · have hab' : a = b := le_antisymm (not_lt.1 hba) (not_lt.1 hab)
        subst hab'
        rcases charsLe_total as bs with h | h
        · left; simpa [charsLe, hab] using h
        · right; simpa [charsLe, hab] using h

theorem charsLe_trans : ∀ a b c : List Char,
    charsLe a b = true → charsLe b c = true → charsLe a c = true
  | [], _, _, _, _ => rfl
  | _ :: _, [], _, h, _ => by simp [charsLe] at h
  | _ :: _, _ :: _, [], _, h => by simp [charsLe] at h
  | a :: as, b :: bs, c :: cs, hab, hbc => by
    by_cases h1 : a < b
    · by_cases h2 : b < c
      · simp [charsLe, lt_trans h1 h2]
      · by_cases h3 : c < b
        · simp [charsLe, h2, h3] at hbc
        · have : b = c := le_antisymm (not_lt.1 h3) (not_lt.1 h2)
          subst this
          simp [charsLe, h1]
    · by_cases h4 : b < a
      · simp [charsLe, h1, h4] at hab
      · have : a = b := le_antisymm (not_lt.1 h4) (not_lt.1 h1)
        subst this
        by_cases h2 : a < c
        · simp [charsLe, h2]
        · by_cases h3 : c < a
          · simp [charsLe, h2, h3] at hbc
          · have : a = c := le_antisymm (not_lt.1 h3) (not_lt.1 h2)
            subst this
            simp only [charsLe, lt_irrefl, if_false] at hab hbc ⊢
            exact charsLe_trans as bs cs hab hbc

theorem strLeB_total (a b : String) : strLeB a b = true ∨ strLeB b a = true :=
  charsLe_total a.data b.data

theorem strLeB_trans (a b c : String) :
    strLeB a b = true → strLeB b c = true → strLeB a c = true :=
  charsLe_trans a.data b.data c.data

theorem sorted_sortStrings (l : List String) :
    (sortStrings l).Pairwise (strLeB · · = true) :=
  sorted_stableSort strLeB (fun _ _ _ => strLeB_trans _ _ _)
    (fun _ _ => strLeB_total _ _) l

theorem mem_sortStrings (a : String) (l : List String) :
    a ∈ sortStrings l ↔ a ∈ l :=
  mem_stableSort strLeB a l

theorem nodup_sortStrings (l : List String) (h : l.Nodup) : (sortStrings l).Nodup :=
  (stableSort_perm strLeB l).nodup_iff.2 h

theorem flatten_replicate_nil (n : Nat) :
    (List.replicate n ([] : List α)).flatten = [] := by
  induction n with
  | zero => rfl
  | succ n ih => simp [List.replicate_succ, ih]

theorem flatten_set_append (L : List (List α)) (i : Nat) (x : α) (hi : i < L.length) :
    List.Perm ((L.set i (L.getD i [] ++ [x])).flatten) (L.flatten ++ [x]) := by
  induction L generalizing i with
  | nil => simp at hi
  | cons l ls ih =>
    cases i with
    | zero =>
      simp only [List.getD_cons_zero, List.set_cons_zero, List.flatten_cons,
        List.append_assoc, List.singleton_append]
      exact List.Perm.append_left l (List.perm_append_singleton x ls.flatten).symm
    | succ i =>
      simp only [List.getD_cons_succ, List.set_cons_succ, List.flatten_cons,
        List.append_assoc]
      have := List.Perm.append_left l (ih i (by simpa using hi))
      simpa [List.append_assoc] using this

theorem lookupG_pushSpec (gs : List (String × List SpecWithDuration)) (cap : String)
    (s : SpecWithDuration) (c : String) :
    lookupG (pushSpec gs cap s) c =
      if c = cap then some ((lookupG gs cap).getD [] ++ [s]) else lookupG gs c := by
  induction gs with
  | nil =>
    by_cases h : c = cap
    · subst h; simp [pushSpec, lookupG]
    · simp [pushSpec, lookupG, h, Ne.symm h]
  | cons p rest ih =>
    obtain ⟨k, v⟩ := p
    by_cases hk : k = cap
    · subst hk
      by_cases hc : k = c
      · subst hc; simp [pushSpec, lookupG]
      · simp [pushSpec, lookupG, hc, Ne.symm hc]
    · by_cases hc : k = c
      · subst hc
        simp [pushSpec, lookupG, hk]
      · simp [pushSpec, lookupG, hk, hc, ih]

theorem flattenG_pushSpec (gs : List (String × List SpecWithDuration)) (cap : String)
    (s : SpecWithDuration) :
    List.Perm (flattenG (pushSpec gs cap s)) (flattenG gs ++ [s]) := by
  induction gs with
  | nil => simp [pushSpec, flattenG]
  | cons p rest ih =>
    obtain ⟨k, v⟩ := p
    by_cases hk : k = cap
    · subst hk
      simp only [pushSpec, if_true, eq_self_iff_true, flattenG, List.map_cons,
        List.flatten_cons, List.append_assoc, List.singleton_append]
      exact List.Perm.append_left v (List.perm_append_singleton s _).symm
    · simp only [flattenG] at ih ⊢
      simp only [pushSpec, hk, if_false, List.map_cons, List.flatten_cons]
      have := List.Perm.append_left v ih
      simpa [List.append_assoc] using this

theorem keys_pushSpec (gs : List (String × List SpecWithDuration)) (cap : String)
    (s : SpecWithDuration) :
    (pushSpec gs cap s).map (·.1) =
      if cap ∈ gs.map (·.1) then gs.map (·.1) else gs.map (·.1) ++ [cap] := by
  induction gs with
  | nil => simp [pushSpec]
  | cons p rest ih =>
    obtain ⟨k, v⟩ := p
    by_cases hk : k = cap
    · subst hk; simp [pushSpec]
    · by_cases hmem : cap ∈ rest.map (·.1) <;>
        simp [pushSpec, hk, ih, Ne.symm hk, hmem]

theorem sound_pushSpec (gs : List (String × List SpecWithDuration)) (cap : String)
    (s : SpecWithDuration)
    (hgs : ∀ p ∈ gs, p.2 ≠ [] ∧ ∀ t ∈ p.2, t.capabilities.head? = some p.1)
    (hs : s.capabilities.head? = some cap) :
    ∀ p ∈ pushSpec gs cap s, p.2 ≠ [] ∧ ∀ t ∈ p.2, t.capabilities.head? = some p.1 := by
  induction gs with
  | nil =>
    intro p hp
    simp only [pushSpec, List.mem_singleton] at hp
    subst hp
    exact ⟨by simp, by simpa using hs⟩
  | cons q rest ih =>
    obtain ⟨k, v⟩ := q
    intro p hp
    by_cases hk : k = cap
    · subst hk
      simp only [pushSpec, if_true, List.mem_cons] at hp
      rcases hp with rfl | hp
      · refine ⟨by simp, ?_⟩
        intro t ht
        rcases List.mem_append.1 ht with ht | ht
        · exact (hgs (k, v) (by simp)).2 t ht
        · simp only [List.mem_singleton] at ht; subst ht; exact hs
      · exact hgs p (List.mem_cons_of_mem _ hp)
    · simp only [pushSpec, hk, if_false, List.mem_cons] at hp
      rcases hp with rfl | hp
      · exact hgs (k, v) (by simp)
      · exact ih (fun q hq => hgs q (List.mem_cons_of_mem _ hq)) p hp

theorem lookupG_mem (gs : List (String × List SpecWithDuration)) (c : String)
    (l : List SpecWithDuration) (h : lookupG gs c = some l) : (c, l) ∈ gs := by
  induction gs with
  | nil => simp [lookupG] at h
  | cons p rest ih =>
    obtain ⟨k, v⟩ := p
    by_cases hk : k = c
    · subst hk
      simp only [lookupG, eq_self_iff_true, if_true, Option.some.injEq] at h
      subst h; simp
    · simp only [lookupG, hk, if_false] at h
      exact List.mem_cons_of_mem _ (ih h)

/-- Conservation of the grouping pass: the grouped specs plus the standard
specs are a permutation of the processed input (generalized over the
accumulator of the fold). -/
theorem groupFold_conservation (specs : List SpecWithDuration)
    (acc : List (String × List SpecWithDuration) × List SpecWithDuration) :
    List.Perm (flattenG (specs.foldl groupStep acc).1 ++ (specs.foldl groupStep acc).2)
      ((flattenG acc.1 ++ acc.2) ++ specs) := by
  induction specs generalizing acc with
  | nil => simp
  | cons s rest ih =>
    rw [List.foldl_cons]
    rcases hcaps : s.capabilities with _ | ⟨cap, tail⟩
    · have hstep : groupStep acc s = (acc.1, acc.2 ++ [s]) := by
        simp [groupStep, hcaps]
      rw [hstep]
      refine (ih _).trans (List.Perm.of_eq ?_)
      simp [List.append_assoc]
    · have hstep : groupStep acc s = (pushSpec acc.1 cap s, acc.2) := by
        simp [groupStep, hcaps]
      rw [hstep]
      refine (ih _).trans ?_
      refine (((flattenG_pushSpec acc.1 cap s).append_right acc.2).append_right rest).trans ?_
      have h1 : ((flattenG acc.1 ++ [s]) ++ acc.2) ++ rest =
          flattenG acc.1 ++ (s :: (acc.2 ++ rest)) := by
        simp [List.append_assoc]
      have h2 : (flattenG acc.1 ++ acc.2) ++ (s :: rest) =
          flattenG acc.1 ++ (acc.2 ++ s :: rest) := by
        simp [List.append_assoc]
      rw [h1, h2]
      exact List.Perm.append_left _ List.perm_middle.symm

theorem groupFold_sound (specs : List SpecWithDuration)
    (acc : List (String × List SpecWithDuration) × List SpecWithDuration)
    (hacc : ∀ p ∈ acc.1, p.2 ≠ [] ∧ ∀ t ∈ p.2, t.capabilities.head? = some p.1) :
    ∀ p ∈ (specs.foldl groupStep acc).1, p.2 ≠ [] ∧
      ∀ t ∈ p.2, t.capabilities.head? = some p.1 := by
  induction specs generalizing acc with
  | nil => exact hacc
  | cons s rest ih =>
    rw [List.foldl_cons]
    rcases hcaps : s.capabilities with _ | ⟨cap, tail⟩
    · have hstep : groupStep acc s = (acc.1, acc.2 ++ [s]) := by simp [groupStep, hcaps]
      rw [hstep]
      exact ih _ hacc
    · have hstep : groupStep acc s = (pushSpec acc.1 cap s, acc.2) := by
        simp [groupStep, hcaps]
      rw [hstep]
      exact ih _ (sound_pushSpec acc.1 cap s hacc (by simp [hcaps]))

theorem groupFold_keys_nodup (specs : List SpecWithDuration)
    (acc : List (String × List SpecWithDuration) × List SpecWithDuration)
    (hacc : (acc.1.map (·.1)).Nodup) :
    ((specs.foldl groupStep acc).1.map (·.1)).Nodup := by
  induction specs generalizing acc with
  | nil => exact hacc
  | cons s rest ih =>
    rw [List.foldl_cons]
    rcases hcaps : s.capabilities with _ | ⟨cap, tail⟩
    · have hstep : groupStep acc s = (acc.1, acc.2 ++ [s]) := by simp [groupStep, hcaps]
      rw [hstep]; exact ih _ hacc
    · have hstep : groupStep acc s = (pushSpec acc.1 cap s, acc.2) := by
        simp [groupStep, hcaps]
      rw [hstep]
      refine ih _ ?_
      rw [keys_pushSpec]
      by_cases hmem : cap ∈ acc.1.map (·.1)
      · simpa [hmem] using hacc
      · simp only [hmem, if_false]
        refine hacc.append (by simp) ?_
        intro a ha hb
        simp only [List.mem_singleton] at hb
        subst hb
        exact hmem ha

/-- Lookup after the whole grouping pass, generalized over the accumulator. -/
theorem groupFold_lookup (specs : List SpecWithDuration)
    (acc : List (String × List SpecWithDuration) × List SpecWithDuration) (c : String) :
    lookupG (specs.foldl groupStep acc).1 c =
      match lookupG acc.1 c with
      | some l =>
        some (l ++ specs.filter fun s => decide (s.capabilities.head? = some c))
      | none =>
        if (specs.filter fun s => decide (s.capabilities.head? = some c)) = [] then none
        else some (specs.filter fun s => decide (s.capabilities.head? = some c)) := by
  induction specs generalizing acc with
  | nil =>
    rcases h : lookupG acc.1 c with _ | l <;> simp [h]
  | cons s rest ih =>
    rw [List.foldl_cons]
    rcases hcaps : s.capabilities with _ | ⟨cap, tail⟩
    · have hstep : groupStep acc s = (acc.1, acc.2 ++ [s]) := by simp [groupStep, hcaps]
      have hcond : ¬ (s.capabilities.head? = some c) := by simp [hcaps]
      rw [hstep, ih]
      simp [List.filter_cons, hcond]
    · have hstep : groupStep acc s = (pushSpec acc.1 cap s, acc.2) := by
        simp [groupStep, hcaps]
      rw [hstep, ih, lookupG_pushSpec]
      by_cases hc : c = cap
      · subst hc
        have hcond : s.capabilities.head? = some c := by simp [hcaps]
        rcases h : lookupG acc.1 c with _ | l
        · simp [h, List.filter_cons, hcond]
        · simp [h, List.filter_cons, hcond]
      · have hcond : ¬ (s.capabilities.head? = some c) := by
          simp only [hcaps, List.head?_cons, Option.some.injEq]
          exact fun hh => hc hh.symm
        rcases h : lookupG acc.1 c with _ | l <;>
          simp [h, hc, List.filter_cons, hcond]

theorem groupFold_standard (specs : List SpecWithDuration)
    (acc : List (String × List SpecWithDuration) × List SpecWithDuration) :
    (specs.foldl groupStep acc).2 =
      acc.2 ++ specs.filter fun s => decide (s.capabilities = []) := by
  induction specs generalizing acc with
  | nil => simp
  | cons s rest ih =>
    rw [List.foldl_cons]
    rcases hcaps : s.capabilities with _ | ⟨cap, tail⟩
    · have hstep : groupStep acc s = (acc.1, acc.2 ++ [s]) := by simp [groupStep, hcaps]
      rw [hstep, ih]
      simp [List.filter_cons, hcaps, List.append_assoc]
    · have hstep : groupStep acc s = (pushSpec acc.1 cap s, acc.2) := by
        simp [groupStep, hcaps]
      rw [hstep, ih]
      simp [List.filter_cons, hcaps]

/-- The definition `groupByCapability` lookup: the group for `c` is exactly the sublist of
specs whose first capability is `c` (present iff that sublist is non-empty). -/
theorem groupByCapability_lookup (specs : List SpecWithDuration) (c : String) :
    lookupG (groupByCapability specs).1 c =
      if (specs.filter fun s => decide (s.capabilities.head? = some c)) = [] then none
      else some (specs.filter fun s => decide (s.capabilities.head? = some c)) := by
  have := groupFold_lookup specs ([], []) c
  simpa [lookupG] using this

theorem groupByCapability_conservation (specs : List SpecWithDuration) :
    List.Perm (flattenG (groupByCapability specs).1 ++ (groupByCapability specs).2)
      specs := by
  have := groupFold_conservation specs ([], [])
  simpa [flattenG] using this

theorem groupByCapability_sound (specs : List SpecWithDuration) :
    ∀ p ∈ (groupByCapability specs).1, p.2 ≠ [] ∧
      ∀ t ∈ p.2, t.capabilities.head? = some p.1 :=
  groupFold_sound specs ([], []) (by simp)

theorem groupByCapability_keys_nodup (specs : List SpecWithDuration) :
    ((groupByCapability specs).1.map (·.1)).Nodup :=
  groupFold_keys_nodup specs ([], []) (by simp)

theorem groupByCapability_standard (specs : List SpecWithDuration) :
    (groupByCapability specs).2 = specs.filter fun s => decide (s.capabilities = []) := by
  have := groupFold_standard specs ([], [])
  simpa using this

theorem splitFold_flatten (target : ℚ) (l : List SpecWithDuration) :
    ∀ (cur : List SpecWithDuration) (tot : ℚ),
      (splitFold target l cur tot).flatten = cur ++ l := by
  induction l with
  | nil => intro cur tot; simp [splitFold]
  | cons s rest ih =>
    intro cur tot
    rw [splitFold]
    by_cases h : tot + s.duration > target ∧ cur ≠ []
    · rw [if_pos h]
      simp [ih]
    · rw [if_neg h]
      simp [ih, List.append_assoc]

theorem splitFold_nonempty (target : ℚ) (l : List SpecWithDuration) :
    ∀ (cur : List SpecWithDuration) (tot : ℚ), cur ≠ [] →
      ∀ sub ∈ splitFold target l cur tot, sub ≠ [] := by
  induction l with
  | nil =>
    intro cur tot hcur sub hsub
    simp only [splitFold, List.mem_singleton] at hsub
    subst hsub; exact hcur
  | cons s rest ih =>
    intro cur tot hcur sub hsub
    rw [splitFold] at hsub
    by_cases h : tot + s.duration > target ∧ cur ≠ []
    · rw [if_pos h] at hsub
      rcases List.mem_cons.1 hsub with rfl | hsub
      · exact hcur
      · exact ih [s] s.duration (by simp) sub hsub
    · rw [if_neg h] at hsub
      exact ih (cur ++ [s]) _ (by simp) sub hsub

theorem splitFold_head (target : ℚ) (l : List SpecWithDuration) :
    ∀ (cur : List SpecWithDuration) (tot : ℚ),
      ∃ q, (splitFold target l cur tot).head? = some (cur ++ q) := by
  induction l with
  | nil => intro cur tot; exact ⟨[], by simp [splitFold]⟩
  | cons s rest ih =>
    intro cur tot
    rw [splitFold]
    by_cases h : tot + s.duration > target ∧ cur ≠ []
    · rw [if_pos h]
      exact ⟨[], by simp⟩
    · rw [if_neg h]
      obtain ⟨q, hq⟩ := ih (cur ++ [s]) (tot + s.duration)
      exact ⟨[s] ++ q, by rw [hq]; simp [List.append_assoc]⟩

theorem runFitsB_append (target : ℚ) (xs : List SpecWithDuration)
    (s : SpecWithDuration) :
    ∀ acc : ℚ, runFitsB target acc (xs ++ [s]) =
      (runFitsB target acc xs &&
        decide (acc + (xs.map (·.duration)).sum + s.duration ≤ target)) := by
  induction xs with
  | nil => intro acc; simp [runFitsB]
  | cons x xs ih =>
    intro acc
    have harg : acc + (x.duration + (xs.map (·.duration)).sum) + s.duration =
        acc + x.duration + (xs.map (·.duration)).sum + s.duration := by ring
    rw [List.cons_append, runFitsB, runFitsB, ih (acc + x.duration), Bool.and_assoc,
      List.map_cons, List.sum_cons, harg]

theorem subOkB_append (target : ℚ) (cur : List SpecWithDuration)
    (s : SpecWithDuration) (hcur : cur ≠ []) (hok : subOkB target cur = true)
    (hfit : (cur.map (·.duration)).sum + s.duration ≤ target) :
    subOkB target (cur ++ [s]) = true := by
  rcases cur with _ | ⟨c, cs⟩
  · exact absurd rfl hcur
  · simp only [List.cons_append, subOkB, runFitsB_append]
    simp only [subOkB] at hok
    rw [Bool.and_eq_true]
    refine ⟨hok, decide_eq_true ?_⟩
    simpa [add_assoc] using hfit

theorem splitFold_greedy (target : ℚ) (l : List SpecWithDuration) :
    ∀ cur : List SpecWithDuration, cur ≠ [] → subOkB target cur = true →
      (∀ sub ∈ splitFold target l cur ((cur.map (·.duration)).sum),
        subOkB target sub = true) ∧
      boundaryOkB target (splitFold target l cur ((cur.map (·.duration)).sum)) = true := by
  induction l with
  | nil =>
    intro cur hcur hok
    constructor
    · intro sub hsub
      simp only [splitFold, List.mem_singleton] at hsub
      subst hsub; exact hok
    · simp [splitFold, boundaryOkB]
  | cons s rest ih =>
    intro cur hcur hok
    rw [splitFold]
    by_cases h : (cur.map (·.duration)).sum + s.duration > target ∧ cur ≠ []
    · rw [if_pos h]
      have hs1 : subOkB target [s] = true := by simp [subOkB, runFitsB]
      have ihs := ih [s] (by simp) hs1
      have hsum : (([s] : List SpecWithDuration).map (·.duration)).sum = s.duration := by
        simp
      rw [hsum] at ihs
      constructor
      · intro sub hsub
        rcases List.mem_cons.1 hsub with rfl | hsub
        · exact hok
        · exact ihs.1 sub hsub
      · obtain ⟨q, hq⟩ := splitFold_head target rest [s] s.duration
        rcases hout : splitFold target rest [s] s.duration with _ | ⟨o, os⟩
        · simp [hout] at hq
        · rw [hout] at hq
          simp only [List.head?_cons, Option.some.injEq] at hq
          subst hq
          rw [hout] at ihs
          simp only [boundaryOkB, List.singleton_append]
          rw [Bool.and_eq_true]
          exact ⟨decide_eq_true h.1, ihs.2⟩
    · rw [if_neg h]
      have hle : (cur.map (·.duration)).sum + s.duration ≤ target := by
        rcases not_and_or.1 h with h' | h'
        · exact not_lt.1 h'
        · exact absurd hcur h'
      have hok' : subOkB target (cur ++ [s]) = true :=
        subOkB_append target cur s hcur hok hle
      have ihs := ih (cur ++ [s]) (by simp) hok'
      have hsum : ((cur ++ [s]).map (·.duration)).sum =
          (cur.map (·.duration)).sum + s.duration := by
        simp
      rw [hsum] at ihs
      exact ihs

theorem sortSpecsDesc_perm (l : List SpecWithDuration) :
    List.Perm (sortSpecsDesc l) l :=
  stableSort_perm _ l

/-- Packaging a subgroup list into packing items: flattened spec paths. -/
theorem mk_items_flatten (c : String) (subs : List (List SpecWithDuration)) :
    ((subs.map fun sub =>
        PackingItem.mk (some c) (sub.map (·.path)) (sub.map (·.duration)).sum).map
      (·.specs)).flatten = subs.flatten.map (·.path) := by
  induction subs with
  | nil => simp
  | cons a as ih => simp only [List.map_cons, List.flatten_cons, List.map_append, ih]

/-- Packaging a subgroup list into packing items: total duration. -/
theorem mk_items_sum (c : String) (subs : List (List SpecWithDuration)) :
    ((subs.map fun sub =>
        PackingItem.mk (some c) (sub.map (·.path)) (sub.map (·.duration)).sum).map
      (·.duration)).sum = (subs.flatten.map (·.duration)).sum := by
  induction subs with
  | nil => simp
  | cons a as ih =>
    simp only [List.map_cons, List.flatten_cons, List.map_append, List.sum_append,
      List.sum_cons, ih]

theorem groupItems_conservation (maxG : ℚ) (c : String) (l : List SpecWithDuration) :
    List.Perm (((groupItems maxG c l).map (·.specs)).flatten) (l.map (·.path)) ∧
      ((groupItems maxG c l).map (·.duration)).sum = (l.map (·.duration)).sum := by
  have hperm := sortSpecsDesc_perm l
  by_cases hcond : ((sortSpecsDesc l).map (·.duration)).sum > maxG ∧
      (sortSpecsDesc l).length > 1
  · constructor
    · rw [groupItems, if_pos hcond, mk_items_flatten, splitFold_flatten]
      simpa using hperm.map (·.path)
    · rw [groupItems, if_pos hcond, mk_items_sum, splitFold_flatten]
      simpa using (hperm.map (·.duration)).sum_eq
  · constructor
    · rw [groupItems, if_neg hcond]
      simpa using hperm.map (·.path)
    · rw [groupItems, if_neg hcond]
      simpa using (hperm.map (·.duration)).sum_eq

theorem groupItems_specs_ne (maxG : ℚ) (c : String) (l : List SpecWithDuration)
    (hl : l ≠ []) : ∀ item ∈ groupItems maxG c l, item.specs ≠ [] := by
  have hsne : sortSpecsDesc l ≠ [] := by
    intro hempty
    apply hl
    have h0 := (sortSpecsDesc_perm l).length_eq
    rw [hempty] at h0
    exact List.length_eq_zero.1 (by simpa using h0.symm)
  intro item hitem
  by_cases hcond : ((sortSpecsDesc l).map (·.duration)).sum > maxG ∧
      (sortSpecsDesc l).length > 1
  · rw [groupItems, if_pos hcond, List.mem_map] at hitem
    obtain ⟨sub, hsub, rfl⟩ := hitem
    rcases hsorted : sortSpecsDesc l with _ | ⟨s, srest⟩
    · exact absurd hsorted hsne
    · rw [hsorted, splitFold] at hsub
      rw [if_neg (by simp)] at hsub
      have hne := splitFold_nonempty _ srest [s] (0 + s.duration) (by simp) sub hsub
      intro hh
      exact hne (by simpa using hh)
  · rw [groupItems, if_neg hcond, List.mem_singleton] at hitem
    subst hitem
    intro hh
    exact hsne (by simpa using hh)

theorem groupItems_capability (maxG : ℚ) (c : String) (l : List SpecWithDuration) :
    ∀ item ∈ groupItems maxG c l, item.capability = some c := by
  intro item hitem
  by_cases hcond : ((sortSpecsDesc l).map (·.duration)).sum > maxG ∧
      (sortSpecsDesc l).length > 1
  · rw [groupItems, if_pos hcond, List.mem_map] at hitem
    obtain ⟨sub, _, rfl⟩ := hitem
    rfl
  · rw [groupItems, if_neg hcond, List.mem_singleton] at hitem
    subst hitem
    rfl

theorem groupItems_paths (maxG : ℚ) (c : String) (l : List SpecWithDuration) :
    ∀ item ∈ groupItems maxG c l, ∀ p ∈ item.specs, ∃ t ∈ l, t.path = p := by
  intro item hitem p hp
  by_cases hcond : ((sortSpecsDesc l).map (·.duration)).sum > maxG ∧
      (sortSpecsDesc l).length > 1
  · rw [groupItems, if_pos hcond, List.mem_map] at hitem
    obtain ⟨sub, hsub, rfl⟩ := hitem
    simp only [List.mem_map] at hp
    obtain ⟨t, ht, rfl⟩ := hp
    have htf : t ∈ (splitFold _ (sortSpecsDesc l) [] 0).flatten :=
      List.mem_flatten.2 ⟨sub, hsub, ht⟩
    rw [splitFold_flatten] at htf
    exact ⟨t, (sortSpecsDesc_perm l).mem_iff.1 (by simpa using htf), rfl⟩
  · rw [groupItems, if_neg hcond, List.mem_singleton] at hitem
    subst hitem
    simp only [List.mem_map] at hp
    obtain ⟨t, ht, rfl⟩ := hp
    exact ⟨t, (sortSpecsDesc_perm l).mem_iff.1 ht, rfl⟩

theorem minTestTime_le (bs : List Bucket) : ∀ b ∈ bs, minTestTime bs ≤ b.testTime := by
  induction bs with
  | nil => intro b hb; simp at hb
  | cons b0 rest ih =>
    intro b hb
    rcases rest with _ | ⟨b1, rest1⟩
    · simp only [List.mem_singleton] at hb
      subst hb; exact le_refl _
    · rcases List.mem_cons.1 hb with rfl | hb
      · simp only [minTestTime]
        exact min_le_left _ _
      · simp only [minTestTime]
        exact le_trans (min_le_right _ _) (ih b hb)

theorem lightestIdx_lt (bs : List Bucket) (h : bs ≠ []) : lightestIdx bs < bs.length := by
  induction bs with
  | nil => exact absurd rfl h
  | cons b rest ih =>
    rcases rest with _ | ⟨b1, rest1⟩
    · simp [lightestIdx]
    · by_cases hc : minTestTime (b1 :: rest1) < b.testTime
      · simp only [lightestIdx, if_pos hc, List.length_cons]
        exact Nat.succ_lt_succ (ih (by simp))
      · simp only [lightestIdx, if_neg hc, List.length_cons]
        exact Nat.succ_pos _

theorem lightest_is_min (bs : List Bucket) (h : bs ≠ []) :
    (bs.getD (lightestIdx bs) emptyBucket).testTime = minTestTime bs := by
  induction bs with
  | nil => exact absurd rfl h
  | cons b rest ih =>
    rcases rest with _ | ⟨b1, rest1⟩
    · simp [lightestIdx, minTestTime]
    · by_cases hc : minTestTime (b1 :: rest1) < b.testTime
      · simp only [lightestIdx, if_pos hc, minTestTime, List.getD_cons_succ]
        rw [ih (by simp)]
        exact (min_eq_right (le_of_lt hc)).symm
      · simp only [lightestIdx, if_neg hc, minTestTime, List.getD_cons_zero]
        exact (min_eq_left (not_lt.1 hc)).symm

theorem lightest_first (bs : List Bucket) :
    ∀ j < lightestIdx bs, minTestTime bs < (bs.getD j emptyBucket).testTime := by
  induction bs with
  | nil => intro j hj; simp [lightestIdx] at hj
  | cons b rest ih =>
    intro j hj
    rcases rest with _ | ⟨b1, rest1⟩
    · simp [lightestIdx] at hj
    · by_cases hc : minTestTime (b1 :: rest1) < b.testTime
      · simp only [lightestIdx, if_pos hc] at hj
        rcases j with _ | j
        · simp only [List.getD_cons_zero, minTestTime]
          exact lt_of_le_of_lt (min_le_right _ _) hc
        · simp only [List.getD_cons_succ]
          have hmin : minTestTime (b :: b1 :: rest1) = minTestTime (b1 :: rest1) :=
            min_eq_right (le_of_lt hc)
          rw [hmin]
          exact ih j (Nat.lt_of_succ_lt_succ hj)
      · simp only [lightestIdx, if_neg hc] at hj
        exact absurd hj (Nat.not_lt_zero j)

theorem getD_map_bucket (cur : List (List PackingItem)) :
    ∀ i : Nat, (cur.map (bucketFromItems emptyBucket)).getD i emptyBucket =
      bucketFromItems emptyBucket (cur.getD i []) := by
  induction cur with
  | nil => intro i; cases i <;> rfl
  | cons a as ih =>
    intro i
    cases i with
    | zero => rfl
    | succ i => simpa using ih i

theorem applyItem_bucketFromItems (b : Bucket) (its : List PackingItem)
    (it : PackingItem) :
    applyItem (bucketFromItems b its) it = bucketFromItems b (its ++ [it]) := by
  rw [bucketFromItems, bucketFromItems, List.foldl_append]
  rfl

theorem addItem_map (cur : List (List PackingItem)) (it : PackingItem) :
    addItem (cur.map (bucketFromItems emptyBucket)) it =
      (cur.set (lightestIdx (cur.map (bucketFromItems emptyBucket)))
        ((cur.getD (lightestIdx (cur.map (bucketFromItems emptyBucket))) []) ++ [it])).map
        (bucketFromItems emptyBucket) := by
  rw [addItem, getD_map_bucket, applyItem_bucketFromItems, List.map_set]

theorem assignFold_partition (its : List PackingItem) :
    ∀ cur : List (List PackingItem), cur ≠ [] →
      ∃ fin : List (List PackingItem), fin.length = cur.length ∧
        List.Perm fin.flatten (cur.flatten ++ its) ∧
        its.foldl addItem (cur.map (bucketFromItems emptyBucket)) =
          fin.map (bucketFromItems emptyBucket) := by
  induction its with
  | nil =>
    intro cur _
    exact ⟨cur, rfl, by simp, rfl⟩
  | cons it rest ih =>
    intro cur hcur
    rw [List.foldl_cons, addItem_map]
    set i := lightestIdx (cur.map (bucketFromItems emptyBucket)) with hidef
    have hi : i < cur.length := by
      have := lightestIdx_lt (cur.map (bucketFromItems emptyBucket))
        (by simpa using hcur)
      simpa using this
    obtain ⟨fin, hlen, hperm, heq⟩ :=
      ih (cur.set i (cur.getD i [] ++ [it]))
        (by
          intro hempty
          have := congrArg List.length hempty
          simp at this
          exact hcur this)
    refine ⟨fin, ?_, ?_, heq⟩
    · simpa using hlen
    · refine hperm.trans ?_
      refine ((flatten_set_append cur i it hi).append_right rest).trans ?_
      refine List.Perm.of_eq ?_
      simp [List.append_assoc]

/-- Every run of the packing loop partitions the (sorted) items among the
`numShards` buckets: each final bucket is `bucketFromItems emptyBucket` of its
own slice, and the slices jointly hold every item exactly once. -/
theorem assignToShards_partition (items : List PackingItem) (numShards : Nat)
    (h : 1 ≤ numShards) :
    ∃ fin : List (List PackingItem), fin.length = numShards ∧
      List.Perm fin.flatten items ∧
      assignToShards items numShards = fin.map (bucketFromItems emptyBucket) := by
  have hrep : List.replicate numShards emptyBucket =
      (List.replicate numShards ([] : List PackingItem)).map
        (bucketFromItems emptyBucket) := by
    rw [List.map_replicate]
    rfl
  have hne : List.replicate numShards ([] : List PackingItem) ≠ [] := by
    intro hh
    have := congrArg List.length hh
    simp at this
    omega
  obtain ⟨fin, hlen, hperm, heq⟩ := assignFold_partition (sortItemsDesc items) _ hne
  refine ⟨fin, by simpa using hlen, ?_, ?_⟩
  · refine hperm.trans ?_
    rw [flatten_replicate_nil]
    simpa using stableSort_perm _ items
  · rw [assignToShards, hrep, heq]

theorem bucketFromItems_specs (its : List PackingItem) :
    ∀ b : Bucket, (bucketFromItems b its).specs = b.specs ++ (its.map (·.specs)).flatten := by
  induction its with
  | nil => intro b; simp [bucketFromItems]
  | cons it rest ih =>
    intro b
    rw [bucketFromItems, List.foldl_cons]
    have := ih (applyItem b it)
    rw [bucketFromItems] at this
    rw [this]
    simp [applyItem, List.append_assoc]

theorem bucketFromItems_testTime (its : List PackingItem) :
    ∀ b : Bucket, (bucketFromItems b its).testTime =
      b.testTime + (its.map (·.duration)).sum := by
  induction its with
  | nil => intro b; simp [bucketFromItems]
  | cons it rest ih =>
    intro b
    rw [bucketFromItems, List.foldl_cons]
    have := ih (applyItem b it)
    rw [bucketFromItems] at this
    rw [this]
    simp [applyItem, add_assoc]

theorem addCap_mem (caps : List String) (c x : String) :
    x ∈ addCap caps c ↔ x ∈ caps ∨ x = c := by
  by_cases h : c ∈ caps
  · simp only [addCap, if_pos h]
    constructor
    · exact Or.inl
    · rintro (hx | rfl)
      · exact hx
      · exact h
  · simp [addCap, if_neg h]

theorem addCap_nodup (caps : List String) (c : String) (h : caps.Nodup) :
    (addCap caps c).Nodup := by
  by_cases hc : c ∈ caps
  · simpa [addCap, if_pos hc] using h
  · rw [addCap, if_neg hc]
    refine h.append (by simp) ?_
    intro a ha hb
    simp only [List.mem_singleton] at hb
    subst hb
    exact hc ha

theorem bucketFromItems_caps_mem (its : List PackingItem) :
    ∀ (b : Bucket) (x : String), x ∈ (bucketFromItems b its).capabilities ↔
      x ∈ b.capabilities ∨ ∃ it ∈ its, it.capability = some x ∧ x ≠ "" := by
  induction its with
  | nil => intro b x; simp [bucketFromItems]
  | cons it rest ih =>
    intro b x
    rw [bucketFromItems, List.foldl_cons]
    have hih := ih (applyItem b it) x
    rw [bucketFromItems] at hih
    rw [hih]
    rcases hcap : it.capability with _ | c
    · simp only [applyItem, hcap]
      constructor
      · rintro (hx | hx)
        · exact Or.inl hx
        · exact Or.inr (by
            obtain ⟨it', hit', hc', hne⟩ := hx
            exact ⟨it', List.mem_cons_of_mem _ hit', hc', hne⟩)
      · rintro (hx | ⟨it', hit', hc', hne⟩)
        · exact Or.inl hx
        · rcases List.mem_cons.1 hit' with rfl | hit'
          · rw [hcap] at hc'; exact absurd hc' (by simp)
          · exact Or.inr ⟨it', hit', hc', hne⟩
    · by_cases hce : c = ""
      · subst hce
        simp only [applyItem, hcap, if_pos rfl]
        constructor
        · rintro (hx | hx)
          · exact Or.inl hx
          · exact Or.inr (by
              obtain ⟨it', hit', hc', hne⟩ := hx
              exact ⟨it', List.mem_cons_of_mem _ hit', hc', hne⟩)
        · rintro (hx | ⟨it', hit', hc', hne⟩)
          · exact Or.inl hx
          · rcases List.mem_cons.1 hit' with rfl | hit'
            · rw [hcap] at hc'
              simp only [Option.some.injEq] at hc'
              exact absurd hc'.symm hne
            · exact Or.inr ⟨it', hit', hc', hne⟩
      · simp only [applyItem, hcap, if_neg hce, addCap_mem]
        constructor
        · rintro ((hx | rfl) | hx)
          · exact Or.inl hx
          · exact Or.inr ⟨it, List.mem_cons_self _ _, hcap, hce⟩
          · refine Or.inr ?_
            obtain ⟨it', hit', hc', hne⟩ := hx
            exact ⟨it', List.mem_cons_of_mem _ hit', hc', hne⟩
        · rintro (hx | ⟨it', hit', hc', hne⟩)
          · exact Or.inl (Or.inl hx)
          · rcases List.mem_cons.1 hit' with rfl | hit'
            · rw [hcap] at hc'
              simp only [Option.some.injEq] at hc'
              exact Or.inl (Or.inr hc'.symm)
            · exact Or.inr ⟨it', hit', hc', hne⟩

theorem bucketFromItems_caps_nodup (its : List PackingItem) :
    ∀ b : Bucket, b.capabilities.Nodup → (bucketFromItems b its).capabilities.Nodup := by
  induction its with
  | nil => intro b hb; simpa [bucketFromItems] using hb
  | cons it rest ih =>
    intro b hb
    rw [bucketFromItems, List.foldl_cons]
    refine ih (applyItem b it) ?_
    rcases hcap : it.capability with _ | c
    · simpa [applyItem, hcap] using hb
    · by_cases hce : c = ""
      · simpa [applyItem, hcap, hce] using hb
      · simp only [applyItem, hcap, if_neg hce]
        exact addCap_nodup _ _ hb

theorem bucketFromItems_flag (its : List PackingItem) :
    ∀ b : Bucket, (bucketFromItems b its).hasStandardSpecs =
      (b.hasStandardSpecs || its.any capFalsy) := by
  induction its with
  | nil => intro b; simp [bucketFromItems]
  | cons it rest ih =>
    intro b
    rw [bucketFromItems, List.foldl_cons]
    have := ih (applyItem b it)
    rw [bucketFromItems] at this
    rw [this, List.any_cons]
    rcases hcap : it.capability with _ | c
    · simp [applyItem, hcap, capFalsy]
    · by_cases hce : c = ""
      · subst hce
        simp [applyItem, hcap, capFalsy]
      · have hcf : (c == "") = false := by
          simpa using hce
        simp [applyItem, hcap, capFalsy, hce, hcf]

theorem finalizeBuckets_length (l : List Bucket) :
    ∀ i : Nat, (finalizeBuckets i l).length = l.length := by
  induction l with
  | nil => intro i; rfl
  | cons b rest ih => intro i; simp [finalizeBuckets, ih]

theorem finalizeBuckets_shards (l : List Bucket) :
    ∀ i : Nat, (finalizeBuckets i l).map (·.shard) = List.range' (i + 1) l.length := by
  induction l with
  | nil => intro i; rfl
  | cons b rest ih =>
    intro i
    rw [finalizeBuckets, List.map_cons, List.length_cons, List.range'_succ, ih (i + 1)]

theorem finalizeBuckets_specs (l : List Bucket) :
    ∀ i : Nat, (finalizeBuckets i l).map (·.specs) = l.map (·.specs) := by
  induction l with
  | nil => intro i; rfl
  | cons b rest ih => intro i; simp [finalizeBuckets, ih]

theorem finalizeBuckets_testTime (l : List Bucket) :
    ∀ i : Nat, (finalizeBuckets i l).map (·.testTime) = l.map (·.testTime) := by
  induction l with
  | nil => intro i; rfl
  | cons b rest ih => intro i; simp [finalizeBuckets, ih]

theorem finalizeBuckets_src (l : List Bucket) :
    ∀ i : Nat, ∀ sa ∈ finalizeBuckets i l, ∃ b ∈ l, sa.specs = b.specs ∧
      sa.testTime = b.testTime ∧ sa.capabilities = sortStrings b.capabilities ∧
      sa.fixtureCount = b.capabilities.length +
        (if b.hasStandardSpecs then 1 else 0) := by
  induction l with
  | nil => intro i sa hsa; simp [finalizeBuckets] at hsa
  | cons b rest ih =>
    intro i sa hsa
    rw [finalizeBuckets] at hsa
    rcases List.mem_cons.1 hsa with rfl | hsa
    · exact ⟨b, List.mem_cons_self _ _, rfl, rfl, rfl, rfl⟩
    · obtain ⟨b', hb', h⟩ := ih (i + 1) sa hsa
      exact ⟨b', List.mem_cons_of_mem _ hb', h⟩

theorem finalizeBuckets_tgt (l : List Bucket) :
    ∀ i : Nat, ∀ b ∈ l, ∃ sa ∈ finalizeBuckets i l, sa.specs = b.specs ∧
      sa.testTime = b.testTime ∧ sa.capabilities = sortStrings b.capabilities ∧
      sa.fixtureCount = b.capabilities.length +
        (if b.hasStandardSpecs then 1 else 0) := by
  induction l with
  | nil => intro i b hb; simp at hb
  | cons b0 rest ih =>
    intro i b hb
    rcases List.mem_cons.1 hb with rfl | hb
    · exact ⟨_, List.mem_cons_self _ _, rfl, rfl, rfl, rfl⟩
    · obtain ⟨sa, hsa, h⟩ := ih (i + 1) b hb
      exact ⟨sa, List.mem_cons_of_mem _ hsa, h⟩

/-- The definition `orchestrate` in terms of the named pipeline stages. -/
theorem orchestrate_eq (specs : List DiscoveredSpec) (numShards : Nat)
    (metrics : List (String × ℚ)) (config : OrchestrationConfig) :
    orchestrate specs numShards metrics config =
      { shards := finalizeBuckets 0
          ((assignToShards (orchestrateItems specs metrics config) numShards).filter
            fun b => !b.specs.isEmpty)
        totalTestTime :=
          ((enrichWithDuration specs metrics config.defaultDuration).map
            (·.duration)).sum } := rfl

theorem splitLargeGroups_conservation (groups : List (String × List SpecWithDuration))
    (maxG : ℚ) :
    List.Perm (((splitLargeGroups groups maxG).map (·.specs)).flatten)
        ((flattenG groups).map (·.path)) ∧
      ((splitLargeGroups groups maxG).map (·.duration)).sum =
        ((flattenG groups).map (·.duration)).sum := by
  induction groups with
  | nil => simp [splitLargeGroups, flattenG]
  | cons g gs ih =>
    have hg := groupItems_conservation maxG g.1 g.2
    have hsplit : splitLargeGroups (g :: gs) maxG =
        groupItems maxG g.1 g.2 ++ splitLargeGroups gs maxG := by
      rw [splitLargeGroups, splitLargeGroups, List.map_cons, List.flatten_cons]
    have hflat : flattenG (g :: gs) = g.2 ++ flattenG gs := by
      rw [flattenG, flattenG, List.map_cons, List.flatten_cons]
    constructor
    · rw [hsplit, hflat, List.map_append, List.flatten_append, List.map_append]
      exact hg.1.append ih.1
    · rw [hsplit, hflat, List.map_append, List.sum_append, List.map_append,
        List.sum_append, hg.2, ih.2]

theorem std_items_flatten (std : List SpecWithDuration) :
    (((std.map fun spec => PackingItem.mk none [spec.path] spec.duration).map
      (·.specs)).flatten) = std.map (·.path) := by
  induction std with
  | nil => rfl
  | cons s rest ih =>
    simp only [List.map_cons, List.flatten_cons, ih]
    rfl

theorem std_items_sum (std : List SpecWithDuration) :
    (((std.map fun spec => PackingItem.mk none [spec.path] spec.duration).map
      (·.duration)).sum) = (std.map (·.duration)).sum := by
  induction std with
  | nil => rfl
  | cons s rest ih =>
    simp only [List.map_cons, List.sum_cons, ih]

/-- Conservation at the packing-item level: the items jointly carry every
enriched spec path exactly once, and their durations sum to the enriched
total. -/
theorem orchestrateItems_conservation (specs : List DiscoveredSpec)
    (metrics : List (String × ℚ)) (config : OrchestrationConfig) :
    List.Perm (((orchestrateItems specs metrics config).map (·.specs)).flatten)
        ((enrichWithDuration specs metrics config.defaultDuration).map (·.path)) ∧
      ((orchestrateItems specs metrics config).map (·.duration)).sum =
        ((enrichWithDuration specs metrics config.defaultDuration).map
          (·.duration)).sum := by
  set enriched := enrichWithDuration specs metrics config.defaultDuration with hdef
  have hsplit := splitLargeGroups_conservation (groupByCapability enriched).1
    config.maxGroupDuration
  have hcons := groupByCapability_conservation enriched
  constructor
  · rw [orchestrateItems, List.map_append, List.flatten_append, std_items_flatten]
    refine (hsplit.1.append (List.Perm.refl _)).trans ?_
    have : (flattenG (groupByCapability enriched).1).map (·.path) ++
        (groupByCapability enriched).2.map (·.path) =
        ((flattenG (groupByCapability enriched).1 ++
          (groupByCapability enriched).2).map (·.path)) := by
      rw [List.map_append]
    rw [this]
    exact hcons.map (·.path)
  · rw [orchestrateItems, List.map_append, List.sum_append, std_items_sum, hsplit.2]
    have : ((flattenG (groupByCapability enriched).1).map (·.duration)).sum +
        ((groupByCapability enriched).2.map (·.duration)).sum =
        (((flattenG (groupByCapability enriched).1 ++
          (groupByCapability enriched).2).map (·.duration)).sum) := by
      rw [List.map_append, List.sum_append]
    rw [this]
    exact (hcons.map (·.duration)).sum_eq

/-- Every packing item carries at least one spec path. -/
theorem orchestrateItems_ne (specs : List DiscoveredSpec)
    (metrics : List (String × ℚ)) (config : OrchestrationConfig) :
    ∀ item ∈ orchestrateItems specs metrics config, item.specs ≠ [] := by
  intro item hitem
  rw [orchestrateItems] at hitem
  rcases List.mem_append.1 hitem with hitem | hitem
  · rw [splitLargeGroups] at hitem
    obtain ⟨gi, hgi, hin⟩ := List.mem_flatten.1 hitem
    obtain ⟨g, hg, rfl⟩ := List.mem_map.1 hgi
    have hne := (groupByCapability_sound _ g hg).1
    exact groupItems_specs_ne _ _ _ hne item hin
  · obtain ⟨s, _, rfl⟩ := List.mem_map.1 hitem
    simp

/-- Classification of packing items: a `none`-capability item is the
standalone item of one capability-less enriched spec; a `some c` item is a
(sub)group of the group for `c`, all of whose paths come from enriched specs
whose first capability is `c`. -/
theorem orchestrateItems_classify (specs : List DiscoveredSpec)
    (metrics : List (String × ℚ)) (config : OrchestrationConfig) :
    ∀ item ∈ orchestrateItems specs metrics config,
      (item.capability = none ∧
        ∃ s ∈ enrichWithDuration specs metrics config.defaultDuration,
          s.capabilities = [] ∧ item.specs = [s.path]) ∨
      (∃ c, item.capability = some c ∧ item.specs ≠ [] ∧
        ∀ p ∈ item.specs,
          ∃ s ∈ enrichWithDuration specs metrics config.defaultDuration,
            s.capabilities.head? = some c ∧ s.path = p) := by
  set enriched := enrichWithDuration specs metrics config.defaultDuration with hdef
  intro item hitem
  rw [orchestrateItems] at hitem
  rcases List.mem_append.1 hitem with hitem | hitem
  · right
    rw [splitLargeGroups] at hitem
    obtain ⟨gi, hgi, hin⟩ := List.mem_flatten.1 hitem
    obtain ⟨g, hg, rfl⟩ := List.mem_map.1 hgi
    have hsound := groupByCapability_sound enriched g hg
    refine ⟨g.1, groupItems_capability _ _ _ item hin,
      groupItems_specs_ne _ _ _ hsound.1 item hin, ?_⟩
    intro p hp
    obtain ⟨t, ht, rfl⟩ := groupItems_paths _ _ _ item hin p hp
    have htmem : t ∈ enriched := by
      have h1 : t ∈ flattenG (groupByCapability enriched).1 := by
        rw [flattenG]
        exact List.mem_flatten.2 ⟨g.2, List.mem_map.2 ⟨g, hg, rfl⟩, ht⟩
      exact (groupByCapability_conservation enriched).mem_iff.1
        (List.mem_append.2 (Or.inl h1))
    exact ⟨t, htmem, hsound.2 t ht, rfl⟩
  · left
    obtain ⟨s, hs, rfl⟩ := List.mem_map.1 hitem
    rw [groupByCapability_standard] at hs
    have := List.mem_filter.1 hs
    exact ⟨rfl, s, this.1, by simpa using this.2, rfl⟩

theorem enrich_paths (specs : List DiscoveredSpec) (metrics : List (String × ℚ))
    (d : ℚ) : (enrichWithDuration specs metrics d).map (·.path) = specs.map (·.path) := by
  rw [enrichWithDuration, List.map_map]
  rfl

theorem flatten_filter_specs (l : List Bucket) :
    ((l.filter fun b => !b.specs.isEmpty).map (·.specs)).flatten =
      (l.map (·.specs)).flatten := by
  induction l with
  | nil => rfl
  | cons b rest ih =>
    rcases h : b.specs.isEmpty with _ | _
    · simp only [List.filter_cons, h, Bool.not_false, if_true, List.map_cons,
        List.flatten_cons, ih]
    · have hb : b.specs = [] := by simpa using h
      simp only [List.filter_cons, h, Bool.not_true, List.map_cons, List.flatten_cons,
        hb, List.nil_append]
      simpa using ih

theorem sum_filter_testTime (l : List Bucket)
    (h : ∀ b ∈ l, b.specs = [] → b.testTime = 0) :
    (((l.filter fun b => !b.specs.isEmpty).map (·.testTime)).sum) =
      ((l.map (·.testTime)).sum) := by
  induction l with
  | nil => rfl
  | cons b rest ih =>
    have hrest := ih fun b' hb' => h b' (List.mem_cons_of_mem _ hb')
    rcases hb : b.specs.isEmpty with _ | _
    · simp only [List.filter_cons, hb, Bool.not_false, if_true, List.map_cons,
        List.sum_cons, hrest]
    · have hzero : b.testTime = 0 :=
        h b (List.mem_cons_self _ _) (by simpa using hb)
      simp only [List.filter_cons, hb, Bool.not_true, List.map_cons, List.sum_cons,
        hzero, zero_add]
      simpa using hrest

theorem buckets_specs_flatten (fin : List (List PackingItem)) :
    (((fin.map (bucketFromItems emptyBucket)).map (·.specs)).flatten) =
      ((fin.flatten.map (·.specs)).flatten) := by
  induction fin with
  | nil => rfl
  | cons comp rest ih =>
    simp only [List.map_cons, List.flatten_cons, List.map_append, List.flatten_append,
      ih, bucketFromItems_specs]
    rfl

theorem buckets_testTime_sum (fin : List (List PackingItem)) :
    (((fin.map (bucketFromItems emptyBucket)).map (·.testTime)).sum) =
      ((fin.flatten.map (·.duration)).sum) := by
  induction fin with
  | nil => rfl
  | cons comp rest ih =>
    simp only [List.map_cons, List.sum_cons, List.flatten_cons, List.map_append,
      List.sum_append, ih, bucketFromItems_testTime]
    simp [emptyBucket]

/-- C1: every input spec path appears in exactly one returned shard's specs
list (the multiset union of all `shard.specs` is a permutation of the input
spec paths), and the `testTime`s of the returned shards sum to
`totalTestTime`. -/
theorem C1_conservation (specs : List DiscoveredSpec) (numShards : Nat)
    (metrics : List (String × ℚ)) (config : OrchestrationConfig)
    (hn : 1 ≤ numShards) :
    List.Perm
        (((orchestrate specs numShards metrics config).shards.map (·.specs)).flatten)
        (specs.map (·.path)) ∧
      ((orchestrate specs numShards metrics config).shards.map (·.testTime)).sum =
        (orchestrate specs numShards metrics config).totalTestTime := by
  obtain ⟨fin, hlen, hperm, heq⟩ :=
    assignToShards_partition (orchestrateItems specs metrics config) numShards hn
  have hcons := orchestrateItems_conservation specs metrics config
  have hne := orchestrateItems_ne specs metrics config
  rw [orchestrate_eq]
  constructor
  · simp only []
    rw [finalizeBuckets_specs, flatten_filter_specs, heq, buckets_specs_flatten]
    refine (((hperm.map (·.specs)).flatten).trans hcons.1).trans ?_
    rw [enrich_paths]
  · simp only []
    rw [finalizeBuckets_testTime, sum_filter_testTime, heq, buckets_testTime_sum]
    · exact ((hperm.map (·.duration)).sum_eq).trans hcons.2
    · rw [heq]
      intro b hb hbempty
      obtain ⟨comp, hcomp, rfl⟩ := List.mem_map.1 hb
      have hspecs := bucketFromItems_specs comp emptyBucket
      rw [hbempty] at hspecs
      have : ∀ it ∈ comp, it.specs = [] := by
        intro it hit
        have hin : it.specs ∈ comp.map (·.specs) := List.mem_map.2 ⟨it, hit, rfl⟩
        have hflat : (comp.map (·.specs)).flatten = [] := by
          have := hspecs.symm
          simpa [emptyBucket] using this
        rcases List.flatten_eq_nil_iff.1 hflat _ hin with h
        exact h
      have hcompnil : comp = [] := by
        rcases comp with _ | ⟨it, its⟩
        · rfl
        · exfalso
          have hit : it ∈ orchestrateItems specs metrics config :=
            hperm.mem_iff.1 (List.mem_flatten.2 ⟨it :: its, hcomp, List.mem_cons_self _ _⟩)
          exact hne it hit (this it (List.mem_cons_self _ _))
      subst hcompnil
      simp [bucketFromItems, emptyBucket]

attribute [local semireducible] Rat.add Rat.mul Rat.inv Rat.sub in
theorem C1_conservation_witness :
    List.Perm
        (((orchestrate [⟨"a.spec.ts", ["email"]⟩, ⟨"b.spec.ts", []⟩] 2
            [("a.spec.ts", 100000)] ⟨60000, 300000⟩).shards.map (·.specs)).flatten)
        (([⟨"a.spec.ts", ["email"]⟩, ⟨"b.spec.ts", []⟩] : List DiscoveredSpec).map
          (·.path)) ∧
      ((orchestrate [⟨"a.spec.ts", ["email"]⟩, ⟨"b.spec.ts", []⟩] 2
          [("a.spec.ts", 100000)] ⟨60000, 300000⟩).shards.map (·.testTime)).sum =
        (orchestrate [⟨"a.spec.ts", ["email"]⟩, ⟨"b.spec.ts", []⟩] 2
          [("a.spec.ts", 100000)] ⟨60000, 300000⟩).totalTestTime :=
  C1_conservation [⟨"a.spec.ts", ["email"]⟩, ⟨"b.spec.ts", []⟩] 2
    [("a.spec.ts", 100000)] ⟨60000, 300000⟩ (by decide)

/-- C2: the returned shard numbers are exactly the dense sequence
`1, 2, ..., K` in order, where `K` is the number of returned shards,
`K ≤ numShards`, and every returned shard has a non-empty specs list. -/
theorem C2_shard_numbering (specs : List DiscoveredSpec) (numShards : Nat)
    (metrics : List (String × ℚ)) (config : OrchestrationConfig)
    (hn : 1 ≤ numShards) :
    (orchestrate specs numShards metrics config).shards.map (·.shard) =
        List.range' 1 (orchestrate specs numShards metrics config).shards.length ∧
      (orchestrate specs numShards metrics config).shards.length ≤ numShards ∧
      ∀ sa ∈ (orchestrate specs numShards metrics config).shards, sa.specs ≠ [] := by
  obtain ⟨fin, hlen, hperm, heq⟩ :=
    assignToShards_partition (orchestrateItems specs metrics config) numShards hn
  rw [orchestrate_eq]
  refine ⟨?_, ?_, ?_⟩
  · simp only []
    rw [finalizeBuckets_shards, finalizeBuckets_length]
  · simp only []
    rw [finalizeBuckets_length]
    calc ((assignToShards (orchestrateItems specs metrics config) numShards).filter
          fun b => !b.specs.isEmpty).length
        ≤ (assignToShards (orchestrateItems specs metrics config) numShards).length :=
          List.length_filter_le _ _
      _ = numShards := by rw [heq]; simpa using hlen
  · simp only []
    intro sa hsa
    obtain ⟨b, hb, hspecs, _⟩ := finalizeBuckets_src _ 0 sa hsa
    have := (List.mem_filter.1 hb).2
    rw [hspecs]
    intro hempty
    rw [hempty] at this
    simp at this

attribute [local semireducible] Rat.add Rat.mul Rat.inv Rat.sub in
theorem C2_shard_numbering_witness :
    (orchestrate [⟨"a.spec.ts", []⟩, ⟨"b.spec.ts", []⟩] 5 [] ⟨60000, 300000⟩).shards.map
        (·.shard) =
        List.range' 1
          (orchestrate [⟨"a.spec.ts", []⟩, ⟨"b.spec.ts", []⟩] 5 []
            ⟨60000, 300000⟩).shards.length ∧
      (orchestrate [⟨"a.spec.ts", []⟩, ⟨"b.spec.ts", []⟩] 5 []
          ⟨60000, 300000⟩).shards.length ≤ 5 ∧
      ∀ sa ∈ (orchestrate [⟨"a.spec.ts", []⟩, ⟨"b.spec.ts", []⟩] 5 []
          ⟨60000, 300000⟩).shards, sa.specs ≠ [] :=
  C2_shard_numbering [⟨"a.spec.ts", []⟩, ⟨"b.spec.ts", []⟩] 5 [] ⟨60000, 300000⟩
    (by decide)

attribute [local semireducible] Rat.add Rat.mul Rat.inv Rat.sub in
/-- C6: packing items are processed in descending order of duration (the
sorted item list is a descending-sorted permutation of the items), each item
goes to the bucket currently holding the minimal accumulated `testTime` with
ties broken in favour of the earliest bucket (the chosen index is in range,
attains the minimum, and every earlier bucket is strictly heavier), and the
4-spec/2-shard scenario balances both shards at `testTime = 100000`. -/
theorem C6_greedy_binpack :
    (∀ items : List PackingItem,
      (sortItemsDesc items).Pairwise (fun a b => b.duration ≤ a.duration) ∧
        List.Perm (sortItemsDesc items) items) ∧
    (∀ bs : List Bucket, bs ≠ [] →
      lightestIdx bs < bs.length ∧
        (∀ j, j < bs.length → (bs.getD (lightestIdx bs) emptyBucket).testTime ≤
          (bs.getD j emptyBucket).testTime) ∧
        (∀ j, j < lightestIdx bs → (bs.getD j emptyBucket).testTime >
          (bs.getD (lightestIdx bs) emptyBucket).testTime)) ∧
    ((orchestrate [⟨"heavy.spec.ts", []⟩, ⟨"medium.spec.ts", []⟩,
        ⟨"light1.spec.ts", []⟩, ⟨"light2.spec.ts", []⟩] 2
      [("heavy.spec.ts", 100000), ("medium.spec.ts", 50000), ("light1.spec.ts", 25000),
        ("light2.spec.ts", 25000)] ⟨60000, 300000⟩).shards.map (·.testTime)) =
      [100000, 100000] := by
  refine ⟨?_, ?_, ?_⟩
  · intro items
    constructor
    · have hs := sorted_stableSort (fun a b : PackingItem => decide (b.duration ≤ a.duration))
        (fun a b c hab hbc => by
          simp only [decide_eq_true_eq] at hab hbc ⊢
          exact le_trans hbc hab)
        (fun a b => by
          simp only [decide_eq_true_eq]
          rcases le_total b.duration a.duration with h | h
          · exact Or.inl h
          · exact Or.inr h) items
      exact hs.imp fun h => by simpa using h
    · exact stableSort_perm _ items
  · intro bs hbs
    refine ⟨lightestIdx_lt bs hbs, ?_, ?_⟩
    · intro j hj
      rw [lightest_is_min bs hbs]
      refine minTestTime_le bs _ ?_
      rw [List.getD_eq_getElem bs emptyBucket hj]
      exact List.getElem_mem hj
    · intro j hj
      rw [lightest_is_min bs hbs]
      exact lightest_first bs j hj
  · decide

attribute [local semireducible] Rat.add Rat.mul Rat.inv Rat.sub in
theorem C6_greedy_binpack_witness :
    lightestIdx [Bucket.mk ["x"] 10 [] false, Bucket.mk ["y"] 3 [] false,
        Bucket.mk ["z"] 3 [] false] <
      ([Bucket.mk ["x"] 10 [] false, Bucket.mk ["y"] 3 [] false,
        Bucket.mk ["z"] 3 [] false] : List Bucket).length ∧
    ∀ j, j < ([Bucket.mk ["x"] 10 [] false, Bucket.mk ["y"] 3 [] false,
        Bucket.mk ["z"] 3 [] false] : List Bucket).length →
      (([Bucket.mk ["x"] 10 [] false, Bucket.mk ["y"] 3 [] false,
        Bucket.mk ["z"] 3 [] false] : List Bucket).getD
          (lightestIdx [Bucket.mk ["x"] 10 [] false, Bucket.mk ["y"] 3 [] false,
            Bucket.mk ["z"] 3 [] false]) emptyBucket).testTime ≤
        (([Bucket.mk ["x"] 10 [] false, Bucket.mk ["y"] 3 [] false,
          Bucket.mk ["z"] 3 [] false] : List Bucket).getD j emptyBucket).testTime :=
  ⟨(C6_greedy_binpack.2.1 _ (by decide)).1, (C6_greedy_binpack.2.1 _ (by decide)).2.1⟩

/-- C3 counterexample: the claim says the stored metrics value is attached
as-is whenever the path is a key of the map; but for a stored value `0` the
code's `metrics[path] || defaultDuration` falls back to the default
(`60000 ≠ 0`). -/
theorem C3_counterexample :
    lookupMetrics [("a.spec.ts", 0)] "a.spec.ts" = some 0 ∧
      enrichWithDuration [⟨"a.spec.ts", []⟩] [("a.spec.ts", 0)] 60000 =
        [⟨"a.spec.ts", [], 60000⟩] ∧ (60000 : ℚ) ≠ 0 := by decide

/-- C3 (amended): the attached duration equals `metrics[path]` whenever the
path is present with a non-zero value, and equals `config.defaultDuration`
when the path is absent or its stored value is `0` (JS `||` treats a stored
`0` as missing); path and capabilities are passed through unchanged. -/
theorem C3_enrichment (specs : List DiscoveredSpec) (metrics : List (String × ℚ))
    (dflt : ℚ) (i : Nat) (sp : DiscoveredSpec) (e : SpecWithDuration)
    (hsp : specs[i]? = some sp)
    (he : (enrichWithDuration specs metrics dflt)[i]? = some e) :
    e.path = sp.path ∧ e.capabilities = sp.capabilities ∧
      (∀ d, lookupMetrics metrics sp.path = some d → d ≠ 0 → e.duration = d) ∧
      ((lookupMetrics metrics sp.path = none ∨
        lookupMetrics metrics sp.path = some 0) → e.duration = dflt) := by
  rw [enrichWithDuration, List.getElem?_map, hsp, Option.map_some'] at he
  have he' := Option.some_injective _ he
  subst he'
  refine ⟨rfl, rfl, ?_, ?_⟩
  · intro d hd hdne
    simp only [hd]
    rw [if_neg hdne]
  · rintro (hd | hd) <;> simp [hd]

attribute [local semireducible] Rat.add Rat.mul Rat.inv Rat.sub in
theorem C3_enrichment_witness :
    (SpecWithDuration.mk "a.spec.ts" ["email"] 5).path =
        (DiscoveredSpec.mk "a.spec.ts" ["email"]).path ∧
      (SpecWithDuration.mk "a.spec.ts" ["email"] 5).capabilities =
        (DiscoveredSpec.mk "a.spec.ts" ["email"]).capabilities ∧
      (∀ d, lookupMetrics [("a.spec.ts", 5)]
          (DiscoveredSpec.mk "a.spec.ts" ["email"]).path = some d → d ≠ 0 →
          (SpecWithDuration.mk "a.spec.ts" ["email"] 5).duration = d) ∧
      ((lookupMetrics [("a.spec.ts", 5)]
          (DiscoveredSpec.mk "a.spec.ts" ["email"]).path = none ∨
        lookupMetrics [("a.spec.ts", 5)]
          (DiscoveredSpec.mk "a.spec.ts" ["email"]).path = some 0) →
        (SpecWithDuration.mk "a.spec.ts" ["email"] 5).duration = 60000) :=
  C3_enrichment [⟨"a.spec.ts", ["email"]⟩] [("a.spec.ts", 5)] 60000 0
    (DiscoveredSpec.mk "a.spec.ts" ["email"]) (SpecWithDuration.mk "a.spec.ts" ["email"] 5)
    (by decide) (by decide)

attribute [local semireducible] Rat.add Rat.mul Rat.inv Rat.sub in
/-- C4 counterexample: `a.spec.ts` (capabilities `[email]`) and `b.spec.ts`
(capabilities `[proxy, email]`) share the capability `email`, and the total
duration of the `email` group — on any reading, even the sum over both specs
(120000) — is within `maxGroupDuration` (300000); yet no returned shard
contains both paths, because grouping uses only the *first* capability. -/
theorem C4_counterexample :
    "email" ∈ (["email"] : List String) ∧
      "email" ∈ (["proxy", "email"] : List String) ∧
      ((((enrichWithDuration [⟨"a.spec.ts", ["email"]⟩, ⟨"b.spec.ts", ["proxy", "email"]⟩]
          [] 60000).filter fun s => decide (s.capabilities.head? = some "email")).map
          (·.duration)).sum ≤ 300000) ∧
      (((enrichWithDuration [⟨"a.spec.ts", ["email"]⟩, ⟨"b.spec.ts", ["proxy", "email"]⟩]
          [] 60000).map (·.duration)).sum ≤ 300000) ∧
      ¬ ∃ sa ∈ (orchestrate [⟨"a.spec.ts", ["email"]⟩, ⟨"b.spec.ts", ["proxy", "email"]⟩]
          2 [] ⟨60000, 300000⟩).shards,
        "a.spec.ts" ∈ sa.specs ∧ "b.spec.ts" ∈ sa.specs := by decide

/-- C4 (amended): capability cohesion holds for the grouping the code
actually performs: if some spec is *filed under* capability `c` (i.e. `c` is
its first capability) and the total duration of `c`'s group is within
`maxGroupDuration`, then one returned shard contains the paths of all specs
whose first capability is `c`. -/
theorem C4_cohesion (specs : List DiscoveredSpec) (numShards : Nat)
    (metrics : List (String × ℚ)) (config : OrchestrationConfig) (c : String)
    (hn : 1 ≤ numShards)
    (hex : ∃ s ∈ specs, s.capabilities.head? = some c)
    (htot : (((enrichWithDuration specs metrics config.defaultDuration).filter
        fun s => decide (s.capabilities.head? = some c)).map (·.duration)).sum ≤
      config.maxGroupDuration) :
    ∃ sa ∈ (orchestrate specs numShards metrics config).shards,
      ∀ s ∈ specs, s.capabilities.head? = some c → s.path ∈ sa.specs := by
  set enriched := enrichWithDuration specs metrics config.defaultDuration with hendef
  set gl := enriched.filter (fun s => decide (s.capabilities.head? = some c)) with hgldef
  -- the enriched image of a spec with first capability c is in the group
  have hmem_gl : ∀ s ∈ specs, s.capabilities.head? = some c →
      (∃ t ∈ gl, t.path = s.path) := by
    intro s hs hhead
    refine ⟨⟨s.path, s.capabilities,
      match lookupMetrics metrics s.path with
      | some d => if d = 0 then config.defaultDuration else d
      | none => config.defaultDuration⟩, ?_, rfl⟩
    rw [hgldef]
    refine List.mem_filter.2 ⟨?_, by simpa using hhead⟩
    rw [hendef, enrichWithDuration]
    exact List.mem_map.2 ⟨s, hs, rfl⟩
  have hglne : gl ≠ [] := by
    obtain ⟨s, hs, hhead⟩ := hex
    obtain ⟨t, ht, _⟩ := hmem_gl s hs hhead
    intro hempty
    rw [hempty] at ht
    simp at ht
  -- the group map binds c to gl
  have hlook : lookupG (groupByCapability enriched).1 c = some gl := by
    rw [groupByCapability_lookup]
    rw [if_neg (by rw [← hgldef]; exact hglne)]
  have hgrp : (c, gl) ∈ (groupByCapability enriched).1 := lookupG_mem _ _ _ hlook
  -- the group stays a single packing item
  have hsorted_sum : (((sortSpecsDesc gl).map (·.duration)).sum) =
      ((gl.map (·.duration)).sum) := ((sortSpecsDesc_perm gl).map (·.duration)).sum_eq
  have hnosplit : ¬ (((sortSpecsDesc gl).map (·.duration)).sum >
      config.maxGroupDuration ∧ (sortSpecsDesc gl).length > 1) := by
    rintro ⟨hgt, -⟩
    rw [hsorted_sum] at hgt
    exact absurd htot (not_le.2 hgt)
  have hitem : groupItems config.maxGroupDuration c gl =
      [PackingItem.mk (some c) ((sortSpecsDesc gl).map (·.path))
        (((sortSpecsDesc gl).map (·.duration)).sum)] := by
    rw [groupItems, if_neg hnosplit]
  set item0 := PackingItem.mk (some c) ((sortSpecsDesc gl).map (·.path))
    (((sortSpecsDesc gl).map (·.duration)).sum) with hitem0
  have hitem_mem : item0 ∈ orchestrateItems specs metrics config := by
    rw [orchestrateItems]
    refine List.mem_append.2 (Or.inl ?_)
    rw [splitLargeGroups]
    refine List.mem_flatten.2 ⟨groupItems config.maxGroupDuration c gl, ?_, ?_⟩
    · exact List.mem_map.2 ⟨(c, gl), hgrp, rfl⟩
    · rw [hitem]
      exact List.mem_singleton.2 rfl
  -- the packing loop puts the whole item in one bucket
  obtain ⟨fin, hlen, hperm, heq⟩ :=
    assignToShards_partition (orchestrateItems specs metrics config) numShards hn
  obtain ⟨comp, hcomp, hincomp⟩ :=
    List.mem_flatten.1 (hperm.mem_iff.2 hitem_mem)
  set b := bucketFromItems emptyBucket comp with hbdef
  have hbmem : b ∈ assignToShards (orchestrateItems specs metrics config) numShards := by
    rw [heq]
    exact List.mem_map.2 ⟨comp, hcomp, rfl⟩
  have hspecs_sub : ∀ p ∈ item0.specs, p ∈ b.specs := by
    intro p hp
    rw [hbdef, bucketFromItems_specs]
    refine List.mem_append.2 (Or.inr ?_)
    exact List.mem_flatten.2 ⟨item0.specs, List.mem_map.2 ⟨item0, hincomp, rfl⟩, hp⟩
  have hitem_ne : item0.specs ≠ [] := by
    rw [hitem0]
    simp only []
    intro hh
    have := List.map_eq_nil_iff.1 hh
    have h0 := (sortSpecsDesc_perm gl).length_eq
    rw [this] at h0
    exact hglne (List.length_eq_zero.1 (by simpa using h0.symm))
  have hbne : b.specs ≠ [] := by
    rcases hps : item0.specs with _ | ⟨p, prest⟩
    · exact absurd hps hitem_ne
    · have := hspecs_sub p (by rw [hps]; exact List.mem_cons_self _ _)
      intro hempty
      rw [hempty] at this
      simp at this
  have hbfil : b ∈ (assignToShards (orchestrateItems specs metrics config)
      numShards).filter fun bb => !bb.specs.isEmpty := by
    refine List.mem_filter.2 ⟨hbmem, ?_⟩
    simpa using hbne
  obtain ⟨sa, hsa, hsa_specs, -, -, -⟩ := finalizeBuckets_tgt _ 0 b hbfil
  refine ⟨sa, ?_, ?_⟩
  · rw [orchestrate_eq]
    exact hsa
  · intro s hs hhead
    obtain ⟨t, ht, htp⟩ := hmem_gl s hs hhead
    rw [hsa_specs]
    refine hspecs_sub s.path ?_
    rw [hitem0]
    simp only []
    refine List.mem_map.2 ⟨t, ?_, htp⟩
    exact (sortSpecsDesc_perm gl).mem_iff.2 ht

attribute [local semireducible] Rat.add Rat.mul Rat.inv Rat.sub in
theorem C4_cohesion_witness :
    ∃ sa ∈ (orchestrate [⟨"email1.spec.ts", ["email"]⟩, ⟨"email2.spec.ts", ["email"]⟩,
        ⟨"standard.spec.ts", []⟩] 3 [] ⟨60000, 300000⟩).shards,
      ∀ s ∈ ([⟨"email1.spec.ts", ["email"]⟩, ⟨"email2.spec.ts", ["email"]⟩,
          ⟨"standard.spec.ts", []⟩] : List DiscoveredSpec),
        s.capabilities.head? = some "email" → s.path ∈ sa.specs :=
  C4_cohesion [⟨"email1.spec.ts", ["email"]⟩, ⟨"email2.spec.ts", ["email"]⟩,
      ⟨"standard.spec.ts", []⟩] 3 [] ⟨60000, 300000⟩ "email"
    (by decide) (by decide) (by decide)

/-- C5: the split step.  A capability group at or under `maxGroupDuration`
(or with a single member) becomes exactly one packing item holding all its
(descending-sorted) members.  A group over the threshold with more than one
member is split greedily over the descending-sorted members with target
`total / ceil(total / maxGroupDuration)`: each subgroup becomes one item
tagged with the capability, the subgroups concatenate back to the sorted
member list (which is a descending permutation of the group), every subgroup
is non-empty, later members joined a subgroup only while the running total
stayed at or under the target (`subOkB`), and a new subgroup was started
exactly when the next member would have exceeded it (`boundaryOkB`). -/
theorem C5_split (maxG : ℚ) (cap : String) (gspecs : List SpecWithDuration) :
    ((((sortSpecsDesc gspecs).map (·.duration)).sum) =
      ((gspecs.map (·.duration)).sum)) ∧
    (¬ ((((sortSpecsDesc gspecs).map (·.duration)).sum) > maxG ∧
        (sortSpecsDesc gspecs).length > 1) →
      groupItems maxG cap gspecs =
        [PackingItem.mk (some cap) ((sortSpecsDesc gspecs).map (·.path))
          (((sortSpecsDesc gspecs).map (·.duration)).sum)]) ∧
    (((((sortSpecsDesc gspecs).map (·.duration)).sum) > maxG ∧
        (sortSpecsDesc gspecs).length > 1) →
      ∃ subs : List (List SpecWithDuration),
        groupItems maxG cap gspecs = subs.map (fun sub =>
          PackingItem.mk (some cap) (sub.map (·.path)) ((sub.map (·.duration)).sum)) ∧
        subs.flatten = sortSpecsDesc gspecs ∧
        List.Perm (sortSpecsDesc gspecs) gspecs ∧
        (sortSpecsDesc gspecs).Pairwise (fun a b => b.duration ≤ a.duration) ∧
        (∀ sub ∈ subs, sub ≠ []) ∧
        (∀ sub ∈ subs,
          subOkB ((((sortSpecsDesc gspecs).map (·.duration)).sum) /
            ((⌈(((sortSpecsDesc gspecs).map (·.duration)).sum) / maxG⌉ : ℤ) : ℚ))
            sub = true) ∧
        boundaryOkB ((((sortSpecsDesc gspecs).map (·.duration)).sum) /
            ((⌈(((sortSpecsDesc gspecs).map (·.duration)).sum) / maxG⌉ : ℤ) : ℚ))
          subs = true) := by
  refine ⟨((sortSpecsDesc_perm gspecs).map (·.duration)).sum_eq, ?_, ?_⟩
  · intro hcond
    rw [groupItems, if_neg hcond]
  · intro hcond
    set target := (((sortSpecsDesc gspecs).map (·.duration)).sum) /
      ((⌈(((sortSpecsDesc gspecs).map (·.duration)).sum) / maxG⌉ : ℤ) : ℚ) with htdef
    refine ⟨splitFold target (sortSpecsDesc gspecs) [] 0, ?_, ?_, sortSpecsDesc_perm _, ?_, ?_, ?_, ?_⟩
    · rw [groupItems, if_pos hcond]
    · rw [splitFold_flatten, List.nil_append]
    · have hs := sorted_stableSort
        (fun a b : SpecWithDuration => decide (b.duration ≤ a.duration))
        (fun a b c hab hbc => by
          simp only [decide_eq_true_eq] at hab hbc ⊢
          exact le_trans hbc hab)
        (fun a b => by
          simp only [decide_eq_true_eq]
          rcases le_total b.duration a.duration with h | h
          · exact Or.inl h
          · exact Or.inr h) gspecs
      exact hs.imp fun h => by simpa using h
    · rcases hs : sortSpecsDesc gspecs with _ | ⟨s, rest⟩
      · rw [hs] at hcond
        simp at hcond
      · rw [splitFold, if_neg (by simp)]
        exact splitFold_nonempty target rest [s] (0 + s.duration) (by simp)
    · rcases hs : sortSpecsDesc gspecs with _ | ⟨s, rest⟩
      · rw [hs] at hcond
        simp at hcond
      · rw [splitFold, if_neg (by simp)]
        have hzero : (0 : ℚ) + s.duration =
            (([s] : List SpecWithDuration).map (·.duration)).sum := by simp
        rw [hzero]
        exact (splitFold_greedy target rest [s] (by simp)
          (by simp [subOkB, runFitsB])).1
    · rcases hs : sortSpecsDesc gspecs with _ | ⟨s, rest⟩
      · rw [hs] at hcond
        simp at hcond
      · rw [splitFold, if_neg (by simp)]
        have hzero : (0 : ℚ) + s.duration =
            (([s] : List SpecWithDuration).map (·.duration)).sum := by simp
        rw [hzero]
        exact (splitFold_greedy target rest [s] (by simp)
          (by simp [subOkB, runFitsB])).2

attribute [local semireducible] Rat.add Rat.mul Rat.inv Rat.sub in
theorem C5_split_witness :
    ∃ subs : List (List SpecWithDuration),
      groupItems 200000 "email"
          [⟨"email1.spec.ts", ["email"], 200000⟩, ⟨"email2.spec.ts", ["email"], 200000⟩] =
        subs.map (fun sub =>
          PackingItem.mk (some "email") (sub.map (·.path)) ((sub.map (·.duration)).sum)) ∧
      subs.flatten = sortSpecsDesc
        [⟨"email1.spec.ts", ["email"], 200000⟩, ⟨"email2.spec.ts", ["email"], 200000⟩] ∧
      List.Perm (sortSpecsDesc
          [⟨"email1.spec.ts", ["email"], 200000⟩, ⟨"email2.spec.ts", ["email"], 200000⟩])
        [⟨"email1.spec.ts", ["email"], 200000⟩, ⟨"email2.spec.ts", ["email"], 200000⟩] ∧
      (sortSpecsDesc [⟨"email1.spec.ts", ["email"], 200000⟩,
          ⟨"email2.spec.ts", ["email"], 200000⟩]).Pairwise
        (fun a b => b.duration ≤ a.duration) ∧
      (∀ sub ∈ subs, sub ≠ []) ∧
      (∀ sub ∈ subs,
        subOkB ((((sortSpecsDesc [⟨"email1.spec.ts", ["email"], 200000⟩,
            ⟨"email2.spec.ts", ["email"], 200000⟩]).map (·.duration)).sum) /
          ((⌈(((sortSpecsDesc [⟨"email1.spec.ts", ["email"], 200000⟩,
            ⟨"email2.spec.ts", ["email"], 200000⟩]).map (·.duration)).sum) / 200000⌉ : ℤ) : ℚ))
          sub = true) ∧
      boundaryOkB ((((sortSpecsDesc [⟨"email1.spec.ts", ["email"], 200000⟩,
          ⟨"email2.spec.ts", ["email"], 200000⟩]).map (·.duration)).sum) /
        ((⌈(((sortSpecsDesc [⟨"email1.spec.ts", ["email"], 200000⟩,
          ⟨"email2.spec.ts", ["email"], 200000⟩]).map (·.duration)).sum) / 200000⌉ : ℤ) : ℚ))
        subs = true :=
  (C5_split 200000 "email"
    [⟨"email1.spec.ts", ["email"], 200000⟩, ⟨"email2.spec.ts", ["email"], 200000⟩]).2.2
    (by decide)

theorem enrich_caps_of_path (specs : List DiscoveredSpec) (metrics : List (String × ℚ))
    (d : ℚ) (hnodup : (specs.map (·.path)).Nodup) :
    ∀ s' ∈ enrichWithDuration specs metrics d, ∀ s ∈ specs, s'.path = s.path →
      s'.capabilities = s.capabilities := by
  intro s' hs' s hs hpath
  rw [enrichWithDuration] at hs'
  obtain ⟨s0, hs0, rfl⟩ := List.mem_map.1 hs'
  have heq : s0 = s :=
    List.inj_on_of_nodup_map hnodup hs0 hs (show s0.path = s.path from hpath)
  subst heq
  rfl

attribute [local semireducible] Rat.add Rat.mul Rat.inv Rat.sub in
/-- C7 counterexample: for the input spec `e.spec.ts` with capability list
`[""]`, the shard records no capability and contains no capability-less spec,
so the claim predicts `fixtureCount = 0 + 0`; the code returns
`fixtureCount = 1` because `if (item.capability)` is false for the empty
string and sets `hasStandardSpecs` instead. -/
theorem C7_counterexample :
    (orchestrate [⟨"e.spec.ts", [""]⟩] 1 [] ⟨60000, 300000⟩).shards =
        [⟨1, ["e.spec.ts"], 60000, [], 1⟩] ∧
      (1 : Nat) ≠ ([] : List String).length +
        (if ∃ s ∈ ([⟨"e.spec.ts", [""]⟩] : List DiscoveredSpec),
            s.capabilities = [] ∧ s.path ∈ (["e.spec.ts"] : List String)
          then 1 else 0) := by decide

/-- Characterization of a returned shard's capability list and fixture
count: `capabilities` is sorted and duplicate-free, and `fixtureCount` is
`capabilities.length` plus 1 exactly when the shard contains a spec that is
capability-less or whose first capability is the empty string (the JS-falsy
capabilities), for distinct input paths. -/
theorem shard_fixture_char (specs : List DiscoveredSpec) (numShards : Nat)
    (metrics : List (String × ℚ)) (config : OrchestrationConfig)
    (hn : 1 ≤ numShards) (hnodup : (specs.map (·.path)).Nodup) :
    ∀ sa ∈ (orchestrate specs numShards metrics config).shards,
      sa.capabilities.Pairwise (fun a b => strLeB a b = true) ∧
      sa.capabilities.Nodup ∧
      sa.fixtureCount = sa.capabilities.length +
        (if ∃ s ∈ specs, s.path ∈ sa.specs ∧
            (s.capabilities = [] ∨ s.capabilities.head? = some "") then 1 else 0) := by
  obtain ⟨fin, hlen, hperm, heq⟩ :=
    assignToShards_partition (orchestrateItems specs metrics config) numShards hn
  have hclassify := orchestrateItems_classify specs metrics config
  intro sa hsa
  rw [orchestrate_eq] at hsa
  obtain ⟨b, hb, hspecs, -, hcaps, hfix⟩ := finalizeBuckets_src _ 0 sa hsa
  have hbbuckets := (List.mem_filter.1 hb).1
  rw [heq] at hbbuckets
  obtain ⟨comp, hcomp, rfl⟩ := List.mem_map.1 hbbuckets
  have hcompsub : ∀ it ∈ comp, it ∈ orchestrateItems specs metrics config := by
    intro it hit
    exact hperm.mem_iff.1 (List.mem_flatten.2 ⟨comp, hcomp, hit⟩)
  have hbspecs : (bucketFromItems emptyBucket comp).specs =
      (comp.map (·.specs)).flatten := by
    rw [bucketFromItems_specs]
    rfl
  have hflag : (bucketFromItems emptyBucket comp).hasStandardSpecs =
      comp.any capFalsy := by
    rw [bucketFromItems_flag]
    rfl
  -- the std flag holds iff the shard holds a capability-less or ""-first spec
  have hiff : comp.any capFalsy = true ↔
      ∃ s ∈ specs, s.path ∈ sa.specs ∧
        (s.capabilities = [] ∨ s.capabilities.head? = some "") := by
    constructor
    · intro hany
      obtain ⟨it, hit, hcf⟩ := List.any_eq_true.1 hany
      rcases hclassify it (hcompsub it hit) with ⟨-, s', hs', hscaps, hspecseq⟩ |
        ⟨c, hc, hne, hpaths⟩
      · rw [enrichWithDuration] at hs'
        obtain ⟨s0, hs0, rfl⟩ := List.mem_map.1 hs'
        refine ⟨s0, hs0, ?_, Or.inl hscaps⟩
        rw [hspecs, hbspecs]
        refine List.mem_flatten.2 ⟨it.specs, List.mem_map.2 ⟨it, hit, rfl⟩, ?_⟩
        rw [hspecseq]
        exact List.mem_singleton.2 rfl
      · have hc0 : c = "" := by
          rw [capFalsy, hc] at hcf
          simpa using hcf
        subst hc0
        rcases hps : it.specs with _ | ⟨p, prest⟩
        · exact absurd hps hne
        · obtain ⟨s', hs', hhead, hpath⟩ := hpaths p (by rw [hps]; exact List.mem_cons_self _ _)
          rw [enrichWithDuration] at hs'
          obtain ⟨s0, hs0, rfl⟩ := List.mem_map.1 hs'
          refine ⟨s0, hs0, ?_, Or.inr hhead⟩
          have hp2 : s0.path = p := hpath
          rw [hspecs, hbspecs, hp2]
          refine List.mem_flatten.2 ⟨it.specs, List.mem_map.2 ⟨it, hit, rfl⟩, ?_⟩
          rw [hps]
          exact List.mem_cons_self _ _
    · rintro ⟨s, hs, hpath, hcaps'⟩
      rw [hspecs, hbspecs] at hpath
      obtain ⟨ps, hps, hppath⟩ := List.mem_flatten.1 hpath
      obtain ⟨it, hit, rfl⟩ := List.mem_map.1 hps
      refine List.any_eq_true.2 ⟨it, hit, ?_⟩
      rcases hclassify it (hcompsub it hit) with ⟨hcap, -⟩ | ⟨c, hc, -, hpaths⟩
      · rw [capFalsy, hcap]
      · obtain ⟨s', hs', hhead, hpatheq⟩ := hpaths s.path hppath
        have hcapseq : s'.capabilities = s.capabilities :=
          enrich_caps_of_path specs metrics config.defaultDuration hnodup s' hs' s hs
            hpatheq
        rcases hcaps' with hnil | hhd
        · rw [hcapseq, hnil] at hhead
          simp at hhead
        · rw [hcapseq, hhd] at hhead
          have : c = "" := by simpa using hhead.symm
          subst this
          rw [capFalsy, hc]
          rfl
  have hnodupb : (bucketFromItems emptyBucket comp).capabilities.Nodup :=
    bucketFromItems_caps_nodup comp emptyBucket (by simp [emptyBucket])
  refine ⟨?_, ?_, ?_⟩
  · rw [hcaps]
    exact sorted_sortStrings _
  · rw [hcaps]
    exact nodup_sortStrings _ hnodupb
  · rw [hfix, hcaps, hflag]
    have hlencaps : (sortStrings (bucketFromItems emptyBucket comp).capabilities).length
        = (bucketFromItems emptyBucket comp).capabilities.length :=
      length_stableSort _ _
    rw [hlencaps]
    by_cases hany : comp.any capFalsy = true
    · rw [if_pos hany, if_pos (hiff.1 hany)]
    · rw [if_neg hany, if_neg ?_]
      intro hp
      exact hany (hiff.2 hp)

/-- C7 (amended): for every returned shard, `capabilities` is the sorted,
duplicate-free list of the capabilities recorded on it, and
`fixtureCount = capabilities.length + 1` exactly when the shard contains at
least one spec that is capability-less *or whose first capability is the
empty string* (JS truthiness of `item.capability`), and
`fixtureCount = capabilities.length` otherwise.  Input spec paths are assumed
distinct. -/
theorem C7_fixtureCount (specs : List DiscoveredSpec) (numShards : Nat)
    (metrics : List (String × ℚ)) (config : OrchestrationConfig)
    (hn : 1 ≤ numShards) (hnodup : (specs.map (·.path)).Nodup) :
    ∀ sa ∈ (orchestrate specs numShards metrics config).shards,
      sa.capabilities.Pairwise (fun a b => strLeB a b = true) ∧
      sa.capabilities.Nodup ∧
      sa.fixtureCount = sa.capabilities.length +
        (if ∃ s ∈ specs, s.path ∈ sa.specs ∧
            (s.capabilities = [] ∨ s.capabilities.head? = some "") then 1 else 0) :=
  shard_fixture_char specs numShards metrics config hn hnodup

attribute [local semireducible] Rat.add Rat.mul Rat.inv Rat.sub in
theorem C7_fixtureCount_witness :
    (ShardAssignment.mk 1 ["email.spec.ts", "std.spec.ts"] 120000 ["email"]
        2).capabilities.Pairwise (fun a b => strLeB a b = true) ∧
      (ShardAssignment.mk 1 ["email.spec.ts", "std.spec.ts"] 120000 ["email"]
        2).capabilities.Nodup ∧
      (ShardAssignment.mk 1 ["email.spec.ts", "std.spec.ts"] 120000 ["email"]
          2).fixtureCount =
        (ShardAssignment.mk 1 ["email.spec.ts", "std.spec.ts"] 120000 ["email"]
          2).capabilities.length +
        (if ∃ s ∈ ([⟨"email.spec.ts", ["email"]⟩, ⟨"std.spec.ts", []⟩] :
            List DiscoveredSpec),
            s.path ∈ (ShardAssignment.mk 1 ["email.spec.ts", "std.spec.ts"] 120000
              ["email"] 2).specs ∧
            (s.capabilities = [] ∨ s.capabilities.head? = some "") then 1 else 0) :=
  C7_fixtureCount [⟨"email.spec.ts", ["email"]⟩, ⟨"std.spec.ts", []⟩] 1 []
    ⟨60000, 300000⟩ (by decide) (by decide)
    (ShardAssignment.mk 1 ["email.spec.ts", "std.spec.ts"] 120000 ["email"] 2)
    (by decide)

/-- C10: grouping, shard capability sets and fixture counts depend only on
first capabilities: a capability `c` that is never any input spec's *first*
capability appears in no returned shard's `capabilities` list, and every
shard's `fixtureCount` is its (hence c-free) `capabilities` count plus a
standard-fixture indicator that mentions only capability-less and
empty-string-first specs — nothing about `c` (for distinct input paths). -/
theorem C10_first_capability_only (specs : List DiscoveredSpec) (numShards : Nat)
    (metrics : List (String × ℚ)) (config : OrchestrationConfig) (c : String)
    (hn : 1 ≤ numShards) (hnodup : (specs.map (·.path)).Nodup)
    (hc : ∀ s ∈ specs, s.capabilities.head? ≠ some c) :
    ∀ sa ∈ (orchestrate specs numShards metrics config).shards,
      c ∉ sa.capabilities ∧
      sa.fixtureCount = sa.capabilities.length +
        (if ∃ s ∈ specs, s.path ∈ sa.specs ∧
            (s.capabilities = [] ∨ s.capabilities.head? = some "") then 1 else 0) := by
  obtain ⟨fin, hlen, hperm, heq⟩ :=
    assignToShards_partition (orchestrateItems specs metrics config) numShards hn
  have hclassify := orchestrateItems_classify specs metrics config
  intro sa hsa
  have hchar :=
    (shard_fixture_char specs numShards metrics config hn hnodup sa hsa).2.2
  rw [orchestrate_eq] at hsa
  obtain ⟨b, hb, -, -, hcaps, hfix⟩ := finalizeBuckets_src _ 0 sa hsa
  have hbbuckets := (List.mem_filter.1 hb).1
  rw [heq] at hbbuckets
  obtain ⟨comp, hcomp, rfl⟩ := List.mem_map.1 hbbuckets
  constructor
  · rw [hcaps, mem_sortStrings]
    intro hmem
    rcases (bucketFromItems_caps_mem comp emptyBucket c).1 hmem with hin | hit
    · simp [emptyBucket] at hin
    · obtain ⟨it, hit, hitc, -⟩ := hit
      have hitems : it ∈ orchestrateItems specs metrics config :=
        hperm.mem_iff.1 (List.mem_flatten.2 ⟨comp, hcomp, hit⟩)
      rcases hclassify it hitems with ⟨hnone, -⟩ | ⟨c', hc', hne, hpaths⟩
      · rw [hnone] at hitc
        exact absurd hitc (by simp)
      · rw [hc'] at hitc
        have hcc : c' = c := by simpa using hitc
        subst hcc
        rcases hps : it.specs with _ | ⟨p, prest⟩
        · exact absurd hps hne
        · obtain ⟨s', hs', hhead, -⟩ :=
            hpaths p (by rw [hps]; exact List.mem_cons_self _ _)
          rw [enrichWithDuration] at hs'
          obtain ⟨s0, hs0, rfl⟩ := List.mem_map.1 hs'
          exact hc s0 hs0 hhead
  · exact hchar

attribute [local semireducible] Rat.add Rat.mul Rat.inv Rat.sub in
theorem C10_first_capability_only_witness :
    "proxy" ∉ (ShardAssignment.mk 1 ["a.spec.ts"] 60000 ["email"] 1).capabilities ∧
      (ShardAssignment.mk 1 ["a.spec.ts"] 60000 ["email"] 1).fixtureCount =
        (ShardAssignment.mk 1 ["a.spec.ts"] 60000 ["email"] 1).capabilities.length +
        (if ∃ s ∈ ([⟨"a.spec.ts", ["email", "proxy"]⟩] : List DiscoveredSpec),
            s.path ∈ (ShardAssignment.mk 1 ["a.spec.ts"] 60000 ["email"] 1).specs ∧
            (s.capabilities = [] ∨ s.capabilities.head? = some "") then 1 else 0) :=
  C10_first_capability_only [⟨"a.spec.ts", ["email", "proxy"]⟩] 1 [] ⟨60000, 300000⟩
    "proxy" (by decide) (by decide) (by decide)
    (ShardAssignment.mk 1 ["a.spec.ts"] 60000 ["email"] 1) (by decide)

theorem dedupSeen_mem (l : List String) :
    ∀ (seen : List String) (x : String),
      x ∈ dedupSeen l seen ↔ x ∈ l ∧ x ∉ seen := by
  induction l with
  | nil => intro seen x; simp [dedupSeen]
  | cons t rest ih =>
    intro seen x
    by_cases ht : t ∈ seen
    · rw [dedupSeen, if_pos ht, ih]
      constructor
      · rintro ⟨hx, hxs⟩
        exact ⟨List.mem_cons_of_mem _ hx, hxs⟩
      · rintro ⟨hx, hxs⟩
        rcases List.mem_cons.1 hx with rfl | hx
        · exact absurd ht hxs
        · exact ⟨hx, hxs⟩
    · rw [dedupSeen, if_neg ht]
      constructor
      · intro hx
        rcases List.mem_cons.1 hx with rfl | hx
        · exact ⟨List.mem_cons_self _ _, ht⟩
        · rcases (ih (t :: seen) x).1 hx with ⟨h1, h2⟩
          exact ⟨List.mem_cons_of_mem _ h1, fun hxs => h2 (List.mem_cons_of_mem _ hxs)⟩
      · rintro ⟨hx, hxs⟩
        rcases List.mem_cons.1 hx with rfl | hx
        · exact List.mem_cons_self _ _
        · by_cases hxt : x = t
          · subst hxt; exact List.mem_cons_self _ _
          · refine List.mem_cons_of_mem _ ((ih (t :: seen) x).2 ⟨hx, ?_⟩)
            intro hmem
            rcases List.mem_cons.1 hmem with h | h
            · exact hxt h
            · exact hxs h

theorem dedupSeen_nodup (l : List String) :
    ∀ seen : List String, (dedupSeen l seen).Nodup := by
  induction l with
  | nil => intro seen; simp [dedupSeen]
  | cons t rest ih =>
    intro seen
    by_cases ht : t ∈ seen
    · rw [dedupSeen, if_pos ht]; exact ih seen
    · rw [dedupSeen, if_neg ht]
      refine List.nodup_cons.2 ⟨?_, ih (t :: seen)⟩
      intro hmem
      exact ((dedupSeen_mem rest (t :: seen) t).1 hmem).2 (List.mem_cons_self _ _)

theorem dedupFirst_mem (l : List String) (x : String) : x ∈ dedupFirst l ↔ x ∈ l := by
  rw [dedupFirst, dedupSeen_mem]
  simp

theorem dedupFirst_nodup (l : List String) : (dedupFirst l).Nodup :=
  dedupSeen_nodup l []

theorem strHasPfx_decompose (p : List Char) :
    ∀ s : List Char, strHasPfx p s = true → s = p ++ s.drop p.length := by
  induction p with
  | nil => intro s _; simp
  | cons a ps ih =>
    intro s hps
    rcases s with _ | ⟨b, bs⟩
    · simp [strHasPfx] at hps
    · rw [strHasPfx, Bool.and_eq_true] at hps
      have hab : a = b := by simpa using hps.1
      subst hab
      have := ih bs hps.2
      calc a :: bs = a :: (ps ++ bs.drop ps.length) := by rw [← this]
        _ = (a :: ps) ++ (a :: bs).drop (a :: ps).length := by simp

theorem strHasPfx_append (p : List Char) (q : List Char) :
    strHasPfx p (p ++ q) = true := by
  induction p with
  | nil => rfl
  | cons a ps ih => simp [strHasPfx, ih]

theorem foldl_tags_mem (calls : List TestCallInfo) :
    ∀ (init : List String) (x : String),
      x ∈ calls.foldl (fun acc call => acc ++ call.tags) init ↔
        x ∈ init ∨ ∃ info ∈ calls, x ∈ info.tags := by
  induction calls with
  | nil => intro init x; simp
  | cons call rest ih =>
    intro init x
    rw [List.foldl_cons, ih]
    constructor
    · rintro (hx | hx)
      · rcases List.mem_append.1 hx with hx | hx
        · exact Or.inl hx
        · exact Or.inr ⟨call, List.mem_cons_self _ _, hx⟩
      · obtain ⟨info, hinfo, hx⟩ := hx
        exact Or.inr ⟨info, List.mem_cons_of_mem _ hinfo, hx⟩
    · rintro (hx | ⟨info, hinfo, hx⟩)
      · exact Or.inl (List.mem_append.2 (Or.inl hx))
      · rcases List.mem_cons.1 hinfo with rfl | hinfo
        · exact Or.inl (List.mem_append.2 (Or.inr hx))
        · exact Or.inr ⟨info, hinfo, hx⟩

/-- C8: a `test.fixme`/`test.skip` call with zero arguments marks its nearest
enclosing block as a skipped scope; every recognized call whose
enclosing-block chain meets a skipped scope comes out `skipped`, whatever its
own marker or tags said; and the file
`test.describe('g', () => { test.fixme(); test('inner', ...) })` yields no
discovered spec. -/
theorem C8_skip_scopes :
    (∀ (file : TsNodes), ∀ c ∈ fileOccs file,
      (c.callee = "test.fixme" ∨ c.callee = "test.skip") → c.argsV = [] →
      ∀ B, c.anc.head? = some B → B ∈ findSkippedScopes file) ∧
    (∀ (skipTags : List String) (file : TsNodes), ∀ c ∈ fileOccs file,
      isInsideSkippedScope c (findSkippedScopes file) = true →
      ∀ info, processCall skipTags (findSkippedScopes file) c = some info →
        info.skipped = true) ∧
    analyzeTestFile ⟨[], "@capability:"⟩ "g.spec.ts" c8DemoFile = none := by
  refine ⟨?_, ?_, by decide⟩
  · intro file c hc hcallee hargs B hB
    rw [findSkippedScopes]
    refine List.mem_filterMap.2 ⟨c, hc, ?_⟩
    rw [extractSkippedBlock, if_pos hcallee, hargs]
    exact hB
  · intro skipTags file c _ hinside info hproc
    rw [processCall] at hproc
    rcases hp : parseTestCall skipTags c with _ | info0
    · rw [hp] at hproc
      simp at hproc
    · rw [hp] at hproc
      simp only [Option.some.injEq] at hproc
      subst hproc
      by_cases hsk : info0.skipped = true
      · rw [if_neg (by simp [hsk])]
        exact hsk
      · have hsk' : info0.skipped = false := by
          rcases h' : info0.skipped with _ | _
          · rfl
          · exact absurd h' hsk
        rw [if_pos (by simp [hsk', hinside])]

theorem C8_skip_scopes_witness :
    [0, 1] ∈ findSkippedScopes c8DemoFile ∧
      analyzeTestFile ⟨[], "@capability:"⟩ "g.spec.ts" c8DemoFile = none :=
  ⟨C8_skip_scopes.1 c8DemoFile ⟨"test.fixme", [], [[0, 1]]⟩ (by decide) (by decide) rfl
      [0, 1] rfl,
    C8_skip_scopes.2.2⟩

/-- C9: the capabilities of a discovered spec are the prefix-matching tags of
all recognized calls of the file — describes and skipped calls included —
with the prefix stripped, sorted and duplicate-free: `cap` is listed iff some
recognized call carries the tag `capabilityPrefix ++ cap`. -/
theorem C9_capabilities (cfg : DiscoveryConfig) (path : String) (file : TsNodes)
    (spec : DiscoveredSpec) (h : analyzeTestFile cfg path file = some spec) :
    spec.capabilities.Pairwise (fun a b => strLeB a b = true) ∧
      spec.capabilities.Nodup ∧
      ∀ cap, cap ∈ spec.capabilities ↔
        ∃ info ∈ extractTestCalls cfg.skipTags file,
          (cfg.capabilityPfx ++ cap) ∈ info.tags := by
  rw [analyzeTestFile] at h
  by_cases h1 : extractTestCalls cfg.skipTags file = []
  · rw [if_pos h1] at h
    simp at h
  · rw [if_neg h1] at h
    by_cases h2 : (!((extractTestCalls cfg.skipTags file).any
        fun call => !call.skipped && !call.isDescribe)) = true
    · rw [if_pos h2] at h
      simp at h
    · rw [if_neg h2] at h
      have hspec := Option.some_injective _ h
      have hcaps : spec.capabilities = sortStrings
          (((dedupFirst ((extractTestCalls cfg.skipTags file).foldl
            (fun acc call => acc ++ call.tags) [])).filter
              fun tag => strHasPfx cfg.capabilityPfx.data tag.data).map
            fun tag => sliceFrom tag cfg.capabilityPfx.length) := by
        rw [← hspec]
      have hlen : cfg.capabilityPfx.length = cfg.capabilityPfx.data.length := rfl
      refine ⟨?_, ?_, ?_⟩
      · rw [hcaps]
        exact sorted_sortStrings _
      · rw [hcaps]
        refine nodup_sortStrings _ ?_
        refine List.Nodup.map_on ?_ ((dedupFirst_nodup _).filter _)
        intro t1 ht1 t2 ht2 hslice
        have hp1 := (List.mem_filter.1 ht1).2
        have hp2 := (List.mem_filter.1 ht2).2
        have hd1 := strHasPfx_decompose cfg.capabilityPfx.data t1.data hp1
        have hd2 := strHasPfx_decompose cfg.capabilityPfx.data t2.data hp2
        have hdrop : t1.data.drop cfg.capabilityPfx.data.length =
            t2.data.drop cfg.capabilityPfx.data.length :=
          congrArg String.data hslice
        refine String.ext ?_
        rw [hd1, hd2, hdrop]
      · intro cap
        rw [hcaps, mem_sortStrings, List.mem_map]
        constructor
        · rintro ⟨t, htf, hslice⟩
          have htd := (List.mem_filter.1 htf).1
          have hpfx := (List.mem_filter.1 htf).2
          have htflat := (dedupFirst_mem _ t).1 htd
          rcases (foldl_tags_mem _ [] t).1 htflat with hnil | ⟨info, hinfo, htag⟩
          · simp at hnil
          · have hteq : cfg.capabilityPfx ++ cap = t := by
              have hcapdata : cap.data = t.data.drop cfg.capabilityPfx.data.length :=
                (congrArg String.data hslice).symm
              refine String.ext ?_
              rw [String.data_append, hcapdata]
              exact (strHasPfx_decompose cfg.capabilityPfx.data t.data hpfx).symm
            exact ⟨info, hinfo, by rw [hteq]; exact htag⟩
        · rintro ⟨info, hinfo, htag⟩
          refine ⟨cfg.capabilityPfx ++ cap, ?_, ?_⟩
          · refine List.mem_filter.2 ⟨?_, ?_⟩
            · exact (dedupFirst_mem _ _).2
                ((foldl_tags_mem _ [] _).2 (Or.inr ⟨info, hinfo, htag⟩))
            · rw [String.data_append]
              exact strHasPfx_append _ _
          · refine String.ext ?_
            show (cfg.capabilityPfx ++ cap).data.drop cfg.capabilityPfx.data.length =
              cap.data
            rw [String.data_append, List.drop_left]

theorem C9_capabilities_witness :
    "email" ∈ (DiscoveredSpec.mk "two.spec.ts" ["email"]).capabilities ↔
      ∃ info ∈ extractTestCalls []
          (TsNodes.cons (TsNode.call "test.skip" (TsArgs.cons
              (TsArg.strLit "a @capability:email") (TsArgs.cons
                (TsArg.fn (TsNode.block TsNodes.nil)) TsArgs.nil)))
            (TsNodes.cons (TsNode.call "test" (TsArgs.cons (TsArg.strLit "b")
              (TsArgs.cons (TsArg.fn (TsNode.block TsNodes.nil)) TsArgs.nil)))
              TsNodes.nil)),
        ((DiscoveryConfig.mk [] "@capability:").capabilityPfx ++ "email") ∈ info.tags :=
  (C9_capabilities (DiscoveryConfig.mk [] "@capability:") "two.spec.ts"
    (TsNodes.cons (TsNode.call "test.skip" (TsArgs.cons
        (TsArg.strLit "a @capability:email") (TsArgs.cons
          (TsArg.fn (TsNode.block TsNodes.nil)) TsArgs.nil)))
      (TsNodes.cons (TsNode.call "test" (TsArgs.cons (TsArg.strLit "b")
        (TsArgs.cons (TsArg.fn (TsNode.block TsNodes.nil)) TsArgs.nil)))
        TsNodes.nil))
    (DiscoveredSpec.mk "two.spec.ts" ["email"]) (by decide)).2.2 "email"
